import Mathlib

/-!
The littlefs-fuse block device wrapper, `lfs_fuse_bd.c`.

A shallow embedding of the user-space block device that backs littlefs with a
lazily grown regular file, together with proofs about its logical-to-physical
block translation.

Modelling conventions.

* The host kernel is an explicit state (`HostFile`: contents of the backing
  file, offset of the open descriptor, number of host calls made so far) and a
  behaviour `env : Nat → HostResp` that says, for the n-th host call, whether
  it fails (with which `errno`), completes, or transfers only part of the
  request.
* `int` values (`list[k]`, `cfsize`) are `Int`; the two places where machine
  arithmetic can wrap, both in `lfs_fuse_bd_seekpos`, carry it explicitly:
  `int * uint32_t` is taken `% 2^32` and `cfsize += 1` wraps to 32 bits.
* `off_t` is 64 bits wide, so the `uint32_t` product above is never negative
  as an `off_t`.
* `errno` after a failed call is positive, as the C standard requires.
* The block map `list` is a `List Int`; reading it past its end is undefined
  behaviour in C and reads as 0 here. The assertions of read and prog, and
  the hypothesis `list.length = block_count` elsewhere, keep the index inside.
* The `while (size > 0)` loops take a fuel argument that bounds the number of
  iterations; `none` means the loop was still running when fuel ran out.
* `assert` failure is the outcome `trap`.
-/

namespace LfsFuseBd

/-! ## Host model -/

/-- One `uint8_t`. -/
abbrev Byte := Fin 256

/-- A value of `errno` after a failed call; the C standard makes every error
number positive. -/
abbrev Errno := { e : Nat // 0 < e }

/-- How the host answers one system call. -/
inductive HostResp where
  /-- the call succeeds and transfers everything that was asked for -/
  | full
  /-- the call succeeds but transfers at most `k` bytes -/
  | short (k : Nat)
  /-- the call returns `-1` and sets `errno` -/
  | fail (errno : Errno)
deriving DecidableEq, Repr

/-- Number of bytes the host agrees to move for a request of `n` bytes. -/
def HostResp.grant : HostResp → Nat → Except Errno Nat
  | .full, n => .ok n
  | .short k, n => .ok (min k n)
  | .fail e, _ => .error e

/-- The backing file as seen through the open descriptor `ctx->fd`. -/
structure HostFile where
  /-- contents of the regular file -/
  bytes : List Byte
  /-- file offset of the descriptor -/
  pos : Nat
  /-- how many host calls have been issued so far -/
  clock : Nat
deriving DecidableEq, Repr

/-- The `whence` argument of `lseek`. -/
inductive Whence where
  | SEEK_SET
  | SEEK_END
deriving DecidableEq, Repr

/-- `EINVAL`. -/
def EINVAL : Errno := ⟨22, by decide⟩

/-- `lseek(fd, offset, whence)`: on success the descriptor offset becomes the
requested position (which may lie beyond the end of the file). -/
def host_lseek (env : Nat → HostResp) (f : HostFile) (offset : Int) (whence : Whence) :
    Except Errno Nat × HostFile :=
  let base : Int :=
    match whence with
    | .SEEK_SET => 0
    | .SEEK_END => f.bytes.length
  match env f.clock with
  | .fail e => (.error e, { f with clock := f.clock + 1 })
  | _ =>
    if base + offset < 0 then (.error EINVAL, { f with clock := f.clock + 1 })
    else (.ok (base + offset).toNat,
          { f with pos := (base + offset).toNat, clock := f.clock + 1 })

/-- File contents after storing `d` at offset `pos`: bytes in the range are
overwritten, a gap between the old end of file and `pos` reads as zero, and
an empty transfer leaves the file as it is. -/
def write_at (bytes : List Byte) (pos : Nat) (d : List Byte) : List Byte :=
  if d.length = 0 then bytes
  else (bytes ++ List.replicate (pos - bytes.length) 0).take pos ++ d
        ++ bytes.drop (pos + d.length)

/-- `write(fd, buf, |buf|)`: returns the number of bytes written. -/
def host_write (env : Nat → HostResp) (f : HostFile) (buf : List Byte) :
    Except Errno Nat × HostFile :=
  match (env f.clock).grant buf.length with
  | .error e => (.error e, { f with clock := f.clock + 1 })
  | .ok n =>
    (.ok n, { bytes := write_at f.bytes f.pos (buf.take n),
              pos := f.pos + n,
              clock := f.clock + 1 })

/-- `read(fd, buf, n)`: returns the bytes delivered, fewer than `n` when the
host says so or when the end of the file is reached. -/
def host_read (env : Nat → HostResp) (f : HostFile) (n : Nat) :
    Except Errno (List Byte) × HostFile :=
  match (env f.clock).grant n with
  | .error e => (.error e, { f with clock := f.clock + 1 })
  | .ok m =>
    let d := (f.bytes.drop f.pos).take m
    (.ok d, { f with pos := f.pos + d.length, clock := f.clock + 1 })

/-- `fsync(fd)`. -/
def host_fsync (env : Nat → HostResp) (f : HostFile) : Except Errno Unit × HostFile :=
  match env f.clock with
  | .fail e => (.error e, { f with clock := f.clock + 1 })
  | _ => (.ok (), { f with clock := f.clock + 1 })

/-! ## Device data -/

/-- The fields of `struct lfs_config` this layer touches. -/
structure lfs_config where
  block_size : Nat
  block_count : Nat
  block_cycles : Int
deriving DecidableEq, Repr

/-- `struct my_context`: the open file, the block map, the slot high-water mark. -/
structure my_context where
  fd : HostFile
  list : List Int
  cfsize : Int
deriving DecidableEq, Repr

/-- What a block operation does: abort on a failed `assert`, or return a code
together with the new device state and its output. -/
inductive Outcome (α : Type) where
  | trap
  | ret (code : Int) (ctx : my_context) (out : α)
deriving DecidableEq, Repr

/-- `int * uint32_t` evaluated in `uint32_t` and widened to `off_t`. -/
def mul_u32 (a : Int) (b : Nat) : Int :=
  ((a % 2 ^ 32) * ((b : Int) % 2 ^ 32)) % 2 ^ 32

/-- An `int` result as the machine stores it: two's-complement wrap-around to
32 bits, so that `INT_MAX + 1` is `INT_MIN`. -/
def wrap_i32 (x : Int) : Int :=
  (x + 2 ^ 31) % 2 ^ 32 - 2 ^ 31

/-! ## The operations -/

/-- `lfs_fuse_bd_seekpos`: byte offset of the start of `block`, allocating a
new zero-filled slot at the end of the file on first use.  The results of the
two host calls are not inspected, exactly as in the source; `cfsize += 1` is
`int` arithmetic. -/
def lfs_fuse_bd_seekpos (cfg : lfs_config) (env : Nat → HostResp) (ctx : my_context)
    (block : Nat) : Int × my_context :=
  let ctx1 : my_context :=
    if ctx.list.getD block 0 < 0 then
      let f1 := (host_lseek env ctx.fd 0 .SEEK_END).2
      let f2 := (host_write env f1 (List.replicate cfg.block_size 0)).2
      { fd := f2, list := ctx.list.set block ctx.cfsize,
        cfsize := wrap_i32 (ctx.cfsize + 1) }
    else ctx
  (mul_u32 (ctx1.list.getD block 0) cfg.block_size, ctx1)

/-- `lfs_fuse_bd_create`: fixes the geometry, removes a file already at `path`
(`present`), creates an empty one, builds the block map and opens the file.
`clock` is the number of host calls made before. -/
def lfs_fuse_bd_create (env : Nat → HostResp) (present : Bool) (clock : Nat) :
    Int × lfs_config × Option my_context :=
  let cfg : lfs_config := { block_size := 512, block_count := 2048, block_cycles := -1 }
  -- stat
  let found : Bool :=
    match env clock with
    | .fail _ => false
    | _ => present
  -- unlink, only when stat found the file
  let removed : Except Errno Nat :=
    if found then
      match env (clock + 1) with
      | .fail e => .error e
      | _ => .ok (clock + 2)
    else .ok (clock + 1)
  match removed with
  | .error e => (-(e.val : Int), cfg, none)
  | .ok c =>
    -- creat
    match env c with
    | .fail e => (-(e.val : Int), cfg, none)
    | _ =>
      let list : List Int := List.replicate cfg.block_count (-1)
      -- open
      match env (c + 1) with
      | .fail e => (-(e.val : Int), cfg, none)
      | _ =>
        (0, cfg, some { fd := { bytes := [], pos := 0, clock := c + 2 },
                        list := list, cfsize := 0 })

/-- The `while (size > 0)` loop of `lfs_fuse_bd_read`; `acc` is what has been
stored into the caller's buffer so far. -/
def read_loop (env : Nat → HostResp) :
    Nat → HostFile → Nat → List Byte → Option (Int × HostFile × List Byte)
  | _, f, 0, acc => some (0, f, acc)
  | 0, _, _ + 1, _ => none
  | fuel + 1, f, size + 1, acc =>
    match host_read env f (size + 1) with
    | (.error e, f1) => some (-(e.val : Int), f1, acc)
    | (.ok d, f1) => read_loop env fuel f1 (size + 1 - d.length) (acc ++ d)

/-- The `while (size > 0)` loop of `lfs_fuse_bd_prog`; `buf` is the part of
the caller's buffer not yet written. -/
def prog_loop (env : Nat → HostResp) :
    Nat → HostFile → List Byte → Option (Int × HostFile)
  | _, f, [] => some (0, f)
  | 0, _, _ :: _ => none
  | fuel + 1, f, b :: bs =>
    match host_write env f (b :: bs) with
    | (.error e, f1) => some (-(e.val : Int), f1)
    | (.ok n, f1) => prog_loop env fuel f1 ((b :: bs).drop n)

/-- `lfs_fuse_bd_read`. The output is the sequence of bytes stored into
`buffer`, starting at its first byte. -/
def lfs_fuse_bd_read (cfg : lfs_config) (env : Nat → HostResp) (fuel : Nat)
    (ctx : my_context) (block off size : Nat) : Option (Outcome (List Byte)) :=
  if ¬ block < cfg.block_count then some .trap
  else
    let r := lfs_fuse_bd_seekpos cfg env ctx block
    if r.1 < 0 then some (.ret r.1 r.2 [])
    else
      match host_lseek env r.2.fd (r.1 + off) .SEEK_SET with
      | (.error e, f) => some (.ret (-(e.val : Int)) { r.2 with fd := f } [])
      | (.ok _, f) =>
        match read_loop env fuel f size [] with
        | none => none
        | some (code, f1, buf) => some (.ret code { r.2 with fd := f1 } buf)

/-- `lfs_fuse_bd_prog`. `buffer` holds the `size = buffer.length` bytes to
write. -/
def lfs_fuse_bd_prog (cfg : lfs_config) (env : Nat → HostResp) (fuel : Nat)
    (ctx : my_context) (block off : Nat) (buffer : List Byte) : Option (Outcome Unit) :=
  if ¬ block < cfg.block_count then some .trap
  else
    let r := lfs_fuse_bd_seekpos cfg env ctx block
    if r.1 < 0 then some (.ret r.1 r.2 ())
    else
      match host_lseek env r.2.fd (r.1 + off) .SEEK_SET with
      | (.error e, f) => some (.ret (-(e.val : Int)) { r.2 with fd := f } ())
      | (.ok _, f) =>
        match prog_loop env fuel f buffer with
        | none => none
        | some (code, f1) => some (.ret code { r.2 with fd := f1 } ())

/-- `lfs_fuse_bd_erase`: no assertion, no access to the context. -/
def lfs_fuse_bd_erase (_cfg : lfs_config) (ctx : my_context) (_block : Nat) :
    Outcome Unit :=
  .ret 0 ctx ()

/-- `lfs_fuse_bd_sync`. -/
def lfs_fuse_bd_sync (_cfg : lfs_config) (env : Nat → HostResp) (ctx : my_context) :
    Outcome Unit :=
  match host_fsync env ctx.fd with
  | (.error e, f) => .ret (-(e.val : Int)) { ctx with fd := f } ()
  | (.ok _, f) => .ret 0 { ctx with fd := f } ()

/-! ## Sequences of calls -/

/-- One call made by the filesystem library through the configuration's
function pointers. -/
inductive Op where
  | read (block off size : Nat)
  | prog (block off : Nat) (buffer : List Byte)
  | erase (block : Nat)
  | sync
deriving DecidableEq, Repr

/-- Run one call to completion: the code it returns and the state it leaves.
`none` when the call aborts on its assertion or is still looping when the
fuel is used up. -/
def Op.exec (cfg : lfs_config) (env : Nat → HostResp) (fuel : Nat) (ctx : my_context) :
    Op → Option (Int × my_context)
  | .read block off size =>
    match lfs_fuse_bd_read cfg env fuel ctx block off size with
    | some (.ret code c _) => some (code, c)
    | _ => none
  | .prog block off buffer =>
    match lfs_fuse_bd_prog cfg env fuel ctx block off buffer with
    | some (.ret code c _) => some (code, c)
    | _ => none
  | .erase block =>
    match lfs_fuse_bd_erase cfg ctx block with
    | .ret code c _ => some (code, c)
    | .trap => none
  | .sync =>
    match lfs_fuse_bd_sync cfg env ctx with
    | .ret code c _ => some (code, c)
    | .trap => none

/-- The logical block a call hands to `lfs_fuse_bd_seekpos`, if any. -/
def Op.touch : Op → Option Nat
  | .read block _ _ => some block
  | .prog block _ _ => some block
  | .erase _ => none
  | .sync => none

/-- The distinct logical blocks passed to read or prog in a sequence of calls. -/
def touched (ops : List Op) : Finset Nat :=
  (ops.filterMap Op.touch).toFinset

/-- The call stays inside one block: `block < block_count` and
`off + size ≤ block_size`. -/
def Op.in_bounds (cfg : lfs_config) : Op → Prop
  | .read block off size => block < cfg.block_count ∧ off + size ≤ cfg.block_size
  | .prog block off buffer => block < cfg.block_count ∧ off + buffer.length ≤ cfg.block_size
  | .erase block => block < cfg.block_count
  | .sync => True

/-- `Run cfg env c ops c1`: the calls `ops`, issued in order from state `c`,
each return (with whatever code) and leave the device in state `c1`. -/
inductive Run (cfg : lfs_config) (env : Nat → HostResp) :
    my_context → List Op → my_context → Prop where
  | nil (c : my_context) : Run cfg env c [] c
  | snoc {c0 c c1 : my_context} {ops : List Op} (op : Op) (fuel : Nat) (code : Int) :
      Run cfg env c0 ops c → op.exec cfg env fuel c = some (code, c1) →
      Run cfg env c0 (ops ++ [op]) c1

/-- States of a device that `lfs_fuse_bd_create` has set up successfully and
that has since served any sequence of calls. -/
def Reachable (cfg : lfs_config) (env : Nat → HostResp) (ctx : my_context) : Prop :=
  ∃ (present : Bool) (clock : Nat) (c0 : my_context) (ops : List Op),
    lfs_fuse_bd_create env present clock = (0, cfg, some c0) ∧ Run cfg env c0 ops ctx

/-- Resolve a list of blocks one after the other. -/
def resolve_all (cfg : lfs_config) (env : Nat → HostResp) (ctx : my_context)
    (blocks : List Nat) : my_context :=
  blocks.foldl (fun c x => (lfs_fuse_bd_seekpos cfg env c x).2) ctx

/-- The block map is well formed: one entry per logical block, each entry
either `-1` or a slot below `cfsize`, every slot below `cfsize` held by some
entry, no slot held twice, `cfsize` counts the allocated entries, and the
number of blocks fits an `int`. -/
structure MapInv (cfg : lfs_config) (ctx : my_context) : Prop where
  len : ctx.list.length = cfg.block_count
  nonneg : 0 ≤ ctx.cfsize
  range : ∀ (i : Nat) (s : Int), ctx.list[i]? = some s → s = -1 ∨ (0 ≤ s ∧ s < ctx.cfsize)
  onto : ∀ s : Int, 0 ≤ s → s < ctx.cfsize → ∃ i : Nat, ctx.list[i]? = some s
  inj : ∀ (i j : Nat) (s : Int), 0 ≤ s → ctx.list[i]? = some s → ctx.list[j]? = some s → i = j
  count : ctx.cfsize = ctx.list.countP (fun s => decide (0 ≤ s))
  small : (cfg.block_count : Int) < 2 ^ 31

/-- Every slot handed out so far lies inside the backing file. -/
def FileCovers (cfg : lfs_config) (ctx : my_context) : Prop :=
  ctx.cfsize * (cfg.block_size : Int) ≤ (ctx.fd.bytes.length : Int)

/-- The backing file consists of the slots handed out so far and nothing else. -/
def FileExact (cfg : lfs_config) (ctx : my_context) : Prop :=
  (ctx.fd.bytes.length : Int) = ctx.cfsize * (cfg.block_size : Int)

/-- The host carries out the extension of the file that resolving the block
of `op` in state `c` asks for, if it asks for one: the `lseek` to the end does
not fail and the `write` stores the whole zero block. -/
def extends_ok (cfg : lfs_config) (env : Nat → HostResp) (c : my_context) (op : Op) : Prop :=
  match op.touch with
  | some b =>
    c.list.getD b 0 < 0 →
      (∀ e, env c.fd.clock ≠ .fail e) ∧
      (env (c.fd.clock + 1)).grant cfg.block_size = .ok cfg.block_size
  | none => True

/-- The host that never fails and never cuts a transfer short. -/
def ideal : Nat → HostResp := fun _ => .full

/-- The geometry `lfs_fuse_bd_create` installs. -/
def created_cfg : lfs_config :=
  { block_size := 512, block_count := 2048, block_cycles := -1 }

/-- The device state right after a successful `lfs_fuse_bd_create` on a path
with no file, made as the first three host calls (`stat`, `creat`, `open`). -/
def created_ctx : my_context :=
  { fd := { bytes := [], pos := 0, clock := 3 },
    list := List.replicate 2048 (-1), cfsize := 0 }

/-! ## Concrete devices and hosts -/

/-- The 512 bytes of value `0xAB` of the worked scenario. -/
def demo_data : List Byte := List.replicate 512 0xAB

/-- The state after `prog(2, 0, demo_data)` on the fresh device. -/
def demo_ctx1 : my_context :=
  { fd := { bytes := List.replicate 512 0xAB, pos := 512, clock := 7 },
    list := (List.replicate 2048 (-1)).set 2 0, cfsize := 1 }

/-- `ENOSPC`. -/
def ENOSPC : Errno := ⟨28, by decide⟩

/-- A host whose fifth call fails with `ENOSPC` and which is otherwise ideal:
on a fresh device that call is the `write` that extends the backing file. -/
def extend_fails : Nat → HostResp := fun i => if i = 4 then .fail ENOSPC else .full

/-- The state in which `prog(0, 0, [0xAB])` leaves the fresh device under
`extend_fails`. -/
def bug_ctx : my_context :=
  { fd := { bytes := [0xAB], pos := 1, clock := 7 },
    list := (List.replicate 2048 (-1)).set 0 0, cfsize := 1 }

/-- A host that answers every read and write with a transfer of zero bytes. -/
def stalled : Nat → HostResp := fun _ => .short 0

/-- A host that moves one byte per read or write. -/
def trickle : Nat → HostResp := fun _ => .short 1

/-- The state after `prog(5, 0, [1, 2, 3])` on `demo_ctx1`. -/
def demo_ctx2 : my_context :=
  { fd := { bytes := List.replicate 512 0xAB ++ ([1, 2, 3] ++ List.replicate 509 0),
            pos := 515, clock := 11 },
    list := ((List.replicate 2048 (-1)).set 2 0).set 5 1, cfsize := 2 }

/-- The state in which `prog(2, 0, [1, 2, 3])` leaves the fresh device when
the host moves one byte per write. -/
def short_ctx : my_context :=
  { fd := { bytes := [1, 2, 3], pos := 3, clock := 9 },
    list := (List.replicate 2048 (-1)).set 2 0, cfsize := 1 }

/-- A geometry of one block of 512 bytes. -/
def one_block_cfg : lfs_config :=
  { block_size := 512, block_count := 1, block_cycles := -1 }

/-- A state whose slot count is `INT_MAX` while its one block is unallocated. -/
def full_count_ctx : my_context :=
  { fd := { bytes := [], pos := 0, clock := 0 }, list := [-1], cfsize := 2147483647 }

/-- `EIO`. -/
def EIO : Errno := ⟨5, by decide⟩

/-- A host whose tenth call fails with `EIO` and which is otherwise ideal. -/
def seek_end_fails : Nat → HostResp := fun i => if i = 9 then .fail EIO else .full

/-- The fresh device after `prog(2, 0, demo_data)` and `read(2, 0, 4)`: block 2
holds 512 bytes of `0xAB` and the descriptor stands at offset 4. -/
def iso_ctx0 : my_context :=
  { fd := { bytes := List.replicate 512 0xAB, pos := 4, clock := 9 },
    list := (List.replicate 2048 (-1)).set 2 0, cfsize := 1 }

/-- The state in which `prog(5, 0, [1, 2, 3])` leaves `iso_ctx0` when the
`lseek` to the end of the file fails. -/
def iso_ctx1 : my_context :=
  { fd := { bytes := List.replicate 4 0xAB ++ (List.replicate 508 0 ++ [1, 2, 3, 0]),
            pos := 515, clock := 13 },
    list := ((List.replicate 2048 (-1)).set 2 0).set 5 1, cfsize := 2 }

/-- A host whose sixth call fails with `EIO` and which is otherwise ideal: on
a fresh device that call is the `lseek` by which the first read or prog goes
to its offset, after the extension of the file. -/
def set_fails : Nat → HostResp := fun i => if i = 5 then .fail EIO else .full

/-- The state in which `prog(2, 0, demo_data)` leaves the fresh device under
`set_fails`: the block is allocated and zero-filled, nothing else is written. -/
def refused_ctx : my_context :=
  { fd := { bytes := List.replicate 512 0, pos := 512, clock := 6 },
    list := (List.replicate 2048 (-1)).set 2 0, cfsize := 1 }

/-- A state whose slot count is negative while its one block is unallocated. -/
def neg_count_ctx : my_context :=
  { fd := { bytes := [], pos := 0, clock := 0 }, list := [-1], cfsize := -1 }

/-- A state whose slot count is `2^23` while its one block is unallocated. -/
def wide_count_ctx : my_context :=
  { fd := { bytes := [], pos := 0, clock := 0 }, list := [-1], cfsize := 8388608 }

/-! ## Basic facts -/

theorem mul_u32_nonneg (a : Int) (b : Nat) : 0 ≤ mul_u32 a b := by
  unfold mul_u32
  exact Int.emod_nonneg _ (by norm_num)

theorem mul_u32_small (s : Int) (bs : Nat) (h0 : 0 ≤ s) (h : s * bs < 2 ^ 32) :
    mul_u32 s bs = s * bs := by
  unfold mul_u32
  rcases Nat.eq_zero_or_pos bs with hz | hpos
  · subst hz
    simp
  · rcases eq_or_lt_of_le h0 with hs0 | hspos
    · subst hs0
      simp
    · have hb1 : (1 : Int) ≤ bs := by exact_mod_cast hpos
      have hs1 : (1 : Int) ≤ s := hspos
      have hs : s < 2 ^ 32 := by nlinarith
      have hbs : (bs : Int) < 2 ^ 32 := by nlinarith
      rw [Int.emod_eq_of_lt h0 hs, Int.emod_eq_of_lt (by positivity) hbs]
      exact Int.emod_eq_of_lt (by positivity) h

theorem created_ok : lfs_fuse_bd_create ideal false 0 = (0, created_cfg, some created_ctx) := by
  rfl

theorem seekpos_allocated (cfg : lfs_config) (env : Nat → HostResp) (ctx : my_context)
    (b : Nat) (h : 0 ≤ ctx.list.getD b 0) :
    lfs_fuse_bd_seekpos cfg env ctx b = (mul_u32 (ctx.list.getD b 0) cfg.block_size, ctx) := by
  simp only [lfs_fuse_bd_seekpos, if_neg (not_lt.mpr h)]

theorem seekpos_fresh (cfg : lfs_config) (env : Nat → HostResp) (ctx : my_context)
    (b : Nat) (h : ctx.list.getD b 0 < 0) :
    lfs_fuse_bd_seekpos cfg env ctx b =
      (mul_u32 ((ctx.list.set b ctx.cfsize).getD b 0) cfg.block_size,
       { fd := (host_write env (host_lseek env ctx.fd 0 .SEEK_END).2
                  (List.replicate cfg.block_size 0)).2,
         list := ctx.list.set b ctx.cfsize,
         cfsize := wrap_i32 (ctx.cfsize + 1) }) := by
  simp only [lfs_fuse_bd_seekpos, if_pos h]

theorem wrap_i32_small (x : Int) (h0 : -(2 ^ 31) ≤ x) (h1 : x < 2 ^ 31) : wrap_i32 x = x := by
  unfold wrap_i32
  rw [Int.emod_eq_of_lt (by omega) (by omega)]
  omega

theorem write_at_nil (bytes : List Byte) (pos : Nat) : write_at bytes pos [] = bytes := by
  simp [write_at]

theorem write_at_head_length (bytes : List Byte) (pos : Nat) :
    ((bytes ++ List.replicate (pos - bytes.length) (0 : Byte)).take pos).length = pos := by
  simp only [List.length_take, List.length_append, List.length_replicate]
  omega

theorem length_write_at (bytes : List Byte) (pos : Nat) (d : List Byte) (h : d ≠ []) :
    (write_at bytes pos d).length = max bytes.length (pos + d.length) := by
  have hd : d.length ≠ 0 := by
    intro h0
    exact h (List.length_eq_zero.mp h0)
  unfold write_at
  rw [if_neg hd, List.length_append, List.length_append, write_at_head_length, List.length_drop]
  omega

theorem length_le_write_at (bytes : List Byte) (pos : Nat) (d : List Byte) :
    bytes.length ≤ (write_at bytes pos d).length := by
  by_cases h : d = []
  · subst h
    rw [write_at_nil]
  · rw [length_write_at bytes pos d h]
    exact le_max_left _ _

theorem getElem?_write_at_lt (bytes : List Byte) (pos : Nat) (d : List Byte) (i : Nat)
    (hi : i < pos) (hl : i < bytes.length) : (write_at bytes pos d)[i]? = bytes[i]? := by
  unfold write_at
  split
  · rfl
  · rw [List.append_assoc, List.getElem?_append_left (by rw [write_at_head_length]; exact hi),
      List.getElem?_take_of_lt hi, List.getElem?_append_left hl]

theorem getElem?_write_at_ge (bytes : List Byte) (pos : Nat) (d : List Byte) (i : Nat)
    (hi : pos + d.length ≤ i) : (write_at bytes pos d)[i]? = bytes[i]? := by
  unfold write_at
  split
  · rfl
  · rw [List.getElem?_append_right (by
        rw [List.length_append, write_at_head_length]; exact hi),
      List.length_append, write_at_head_length, List.getElem?_drop]
    congr 1
    omega

theorem getElem?_write_at_mid (bytes : List Byte) (pos : Nat) (d : List Byte) (i : Nat)
    (hi : i < d.length) : (write_at bytes pos d)[pos + i]? = d[i]? := by
  unfold write_at
  have hd : d.length ≠ 0 := by omega
  rw [if_neg hd, List.append_assoc, List.getElem?_append_right (by
        rw [write_at_head_length]; omega), write_at_head_length,
      List.getElem?_append_left (by omega)]
  congr 1
  omega

theorem write_at_read_back (bytes : List Byte) (pos : Nat) (d : List Byte) :
    ((write_at bytes pos d).drop pos).take d.length = d := by
  apply List.ext_getElem?
  intro i
  by_cases hi : i < d.length
  · rw [List.getElem?_take_of_lt hi, List.getElem?_drop, getElem?_write_at_mid _ _ _ _ hi]
  · rw [List.getElem?_eq_none (by simp; omega), List.getElem?_eq_none (by omega)]

theorem write_at_end (bytes : List Byte) (d : List Byte) :
    write_at bytes bytes.length d = bytes ++ d := by
  unfold write_at
  split
  · rename_i h
    rw [List.length_eq_zero.mp h, List.append_nil]
  · simp

theorem write_at_frame (bytes : List Byte) (pos : Nat) (d : List Byte) (q n : Nat)
    (hq : q + n ≤ bytes.length) (hdis : q + n ≤ pos ∨ pos + d.length ≤ q) :
    ((write_at bytes pos d).drop q).take n = (bytes.drop q).take n := by
  apply List.ext_getElem?
  intro i
  by_cases hi : i < n
  · rw [List.getElem?_take_of_lt hi, List.getElem?_take_of_lt hi, List.getElem?_drop,
      List.getElem?_drop]
    rcases hdis with h | h
    · exact getElem?_write_at_lt _ _ _ _ (by omega) (by omega)
    · exact getElem?_write_at_ge _ _ _ _ (by omega)
  · rw [List.getElem?_eq_none (by simp; omega), List.getElem?_eq_none (by simp; omega)]

theorem create_ok_inv (env : Nat → HostResp) (present : Bool) (clock : Nat)
    (cfg : lfs_config) (c0 : my_context)
    (h : lfs_fuse_bd_create env present clock = (0, cfg, some c0)) :
    cfg = created_cfg ∧ c0.list = List.replicate 2048 (-1) ∧ c0.cfsize = 0 ∧
      c0.fd.bytes = [] := by
  unfold lfs_fuse_bd_create at h
  simp only [] at h
  split at h
  · simp at h
  · split at h
    · simp at h
    · split at h
      · simp at h
      · simp only [Prod.mk.injEq, Option.some.injEq, true_and] at h
        obtain ⟨h1, h2⟩ := h
        subst h1 h2
        exact ⟨rfl, rfl, rfl, rfl⟩

theorem read_ret_ctx (cfg : lfs_config) (env : Nat → HostResp) (fuel : Nat)
    (c : my_context) (b off size : Nat) (code : Int) (c1 : my_context) (buf : List Byte)
    (h : lfs_fuse_bd_read cfg env fuel c b off size = some (.ret code c1 buf)) :
    b < cfg.block_count ∧ c1.list = (lfs_fuse_bd_seekpos cfg env c b).2.list ∧
      c1.cfsize = (lfs_fuse_bd_seekpos cfg env c b).2.cfsize := by
  unfold lfs_fuse_bd_read at h
  split at h
  · simp at h
  · rename_i hb
    simp only [not_not] at hb
    simp only [] at h
    split at h
    · simp only [Option.some.injEq, Outcome.ret.injEq] at h
      obtain ⟨_, h2, _⟩ := h
      subst h2
      exact ⟨hb, rfl, rfl⟩
    · split at h
      · simp only [Option.some.injEq, Outcome.ret.injEq] at h
        obtain ⟨_, h2, _⟩ := h
        subst h2
        exact ⟨hb, rfl, rfl⟩
      · split at h
        · simp at h
        · simp only [Option.some.injEq, Outcome.ret.injEq] at h
          obtain ⟨_, h2, _⟩ := h
          subst h2
          exact ⟨hb, rfl, rfl⟩

theorem prog_ret_ctx (cfg : lfs_config) (env : Nat → HostResp) (fuel : Nat)
    (c : my_context) (b off : Nat) (data : List Byte) (code : Int) (c1 : my_context)
    (h : lfs_fuse_bd_prog cfg env fuel c b off data = some (.ret code c1 ())) :
    b < cfg.block_count ∧ c1.list = (lfs_fuse_bd_seekpos cfg env c b).2.list ∧
      c1.cfsize = (lfs_fuse_bd_seekpos cfg env c b).2.cfsize := by
  unfold lfs_fuse_bd_prog at h
  split at h
  · simp at h
  · rename_i hb
    simp only [not_not] at hb
    simp only [] at h
    split at h
    · simp only [Option.some.injEq, Outcome.ret.injEq] at h
      obtain ⟨_, h2, _⟩ := h
      subst h2
      exact ⟨hb, rfl, rfl⟩
    · split at h
      · simp only [Option.some.injEq, Outcome.ret.injEq] at h
        obtain ⟨_, h2, _⟩ := h
        subst h2
        exact ⟨hb, rfl, rfl⟩
      · split at h
        · simp at h
        · simp only [Option.some.injEq, Outcome.ret.injEq] at h
          obtain ⟨_, h2, _⟩ := h
          subst h2
          exact ⟨hb, rfl, rfl⟩

/-- What one completed call does to the block map: nothing, or one resolution. -/
theorem exec_map (cfg : lfs_config) (env : Nat → HostResp) (fuel : Nat)
    (c : my_context) (op : Op) (code : Int) (c1 : my_context)
    (h : op.exec cfg env fuel c = some (code, c1)) :
    (c1.list = c.list ∧ c1.cfsize = c.cfsize ∧ op.touch = none) ∨
    (∃ b, op.touch = some b ∧ b < cfg.block_count ∧
      c1.list = (lfs_fuse_bd_seekpos cfg env c b).2.list ∧
      c1.cfsize = (lfs_fuse_bd_seekpos cfg env c b).2.cfsize) := by
  cases op with
  | read b off size =>
    right
    simp only [Op.exec] at h
    split at h
    · rename_i code1 c2 buf hr
      simp only [Option.some.injEq, Prod.mk.injEq] at h
      obtain ⟨_, h2⟩ := h
      subst h2
      exact ⟨b, rfl, read_ret_ctx cfg env fuel c b off size code1 c2 buf hr⟩
    · simp at h
  | prog b off data =>
    right
    simp only [Op.exec] at h
    split at h
    · rename_i code1 c2 u hr
      simp only [Option.some.injEq, Prod.mk.injEq] at h
      obtain ⟨_, h2⟩ := h
      subst h2
      exact ⟨b, rfl, prog_ret_ctx cfg env fuel c b off data code1 c2 hr⟩
    · simp at h
  | erase b =>
    left
    simp only [Op.exec, lfs_fuse_bd_erase, Option.some.injEq, Prod.mk.injEq] at h
    obtain ⟨_, h2⟩ := h
    subst h2
    exact ⟨rfl, rfl, rfl⟩
  | sync =>
    left
    simp only [Op.exec, lfs_fuse_bd_sync] at h
    split at h
    · rename_i code1 c2 u hr
      simp only [Option.some.injEq, Prod.mk.injEq] at h
      obtain ⟨_, h2⟩ := h
      subst h2
      split at hr
      · simp only [Outcome.ret.injEq] at hr
        obtain ⟨_, h3, _⟩ := hr
        subst h3
        exact ⟨rfl, rfl, rfl⟩
      · simp only [Outcome.ret.injEq] at hr
        obtain ⟨_, h3, _⟩ := hr
        subst h3
        exact ⟨rfl, rfl, rfl⟩
    · simp at h

theorem getD_of_getElem? (l : List Int) (b : Nat) (s : Int) (h : l[b]? = some s) :
    l.getD b 0 = s := by
  rw [List.getD_eq_getElem?_getD, h]
  rfl

theorem getElem?_of_lt (l : List Int) (b : Nat) (h : b < l.length) :
    l[b]? = some (l.getD b 0) := by
  rw [List.getD_eq_getElem?_getD, List.getElem?_eq_getElem h]
  rfl

theorem countP_set_fresh (l : List Int) (b : Nat) (v : Int) (hb : b < l.length)
    (hold : l.getD b 0 < 0) (hv : 0 ≤ v) :
    (l.set b v).countP (fun s => decide (0 ≤ s)) =
      l.countP (fun s => decide (0 ≤ s)) + 1 := by
  induction l generalizing b with
  | nil => simp at hb
  | cons x xs ih =>
    cases b with
    | zero =>
      have hx : x < 0 := by simpa using hold
      rw [List.set_cons_zero, List.countP_cons, List.countP_cons]
      simp [hv, not_le.mpr hx]
    | succ n =>
      have hn : n < xs.length := by simpa using hb
      have hold1 : xs.getD n 0 < 0 := by simpa using hold
      rw [List.set_cons_succ, List.countP_cons, List.countP_cons, ih n hn hold1]
      omega

theorem countP_le_length_int (l : List Int) :
    l.countP (fun s => decide (0 ≤ s)) ≤ l.length := List.countP_le_length _

theorem MapInv_alloc (cfg : lfs_config) (c : my_context) (b : Nat) (f : HostFile)
    (hinv : MapInv cfg c) (hb : b < cfg.block_count) (hneg : c.list.getD b 0 < 0) :
    MapInv cfg { fd := f, list := c.list.set b c.cfsize, cfsize := c.cfsize + 1 } := by
  have hbl : b < c.list.length := by rw [hinv.len]; exact hb
  have hbq : c.list[b]? = some (c.list.getD b 0) := getElem?_of_lt _ _ hbl
  refine ⟨?_, ?_, ?_, ?_, ?_, ?_, hinv.small⟩
  · simp only [List.length_set]
    exact hinv.len
  · have := hinv.nonneg
    simp only
    omega
  · intro i s hs
    simp only at hs ⊢
    by_cases hib : b = i
    · subst hib
      rw [List.getElem?_set_self hbl] at hs
      have : c.cfsize = s := by simpa using hs
      have := hinv.nonneg
      right
      omega
    · rw [List.getElem?_set_ne hib] at hs
      rcases hinv.range i s hs with h | h
      · exact Or.inl h
      · right
        omega
  · intro s hs0 hs1
    simp only at hs1 ⊢
    by_cases hsc : s = c.cfsize
    · exact ⟨b, by rw [List.getElem?_set_self hbl, hsc]⟩
    · obtain ⟨i, hi⟩ := hinv.onto s hs0 (by omega)
      refine ⟨i, ?_⟩
      have hib : b ≠ i := by
        intro hbi
        subst hbi
        rw [hbq] at hi
        have : c.list.getD b 0 = s := by simpa using hi
        omega
      rw [List.getElem?_set_ne hib]
      exact hi
  · intro i j s hs0 hi hj
    simp only at hi hj
    by_cases hib : b = i
    · by_cases hjb : b = j
      · rw [← hib, ← hjb]
      · exfalso
        subst hib
        rw [List.getElem?_set_self hbl] at hi
        rw [List.getElem?_set_ne hjb] at hj
        have h1 : c.cfsize = s := by simpa using hi
        rcases hinv.range j s hj with h | h
        · omega
        · omega
    · by_cases hjb : b = j
      · exfalso
        subst hjb
        rw [List.getElem?_set_self hbl] at hj
        rw [List.getElem?_set_ne hib] at hi
        have h1 : c.cfsize = s := by simpa using hj
        rcases hinv.range i s hi with h | h
        · omega
        · omega
      · rw [List.getElem?_set_ne hib] at hi
        rw [List.getElem?_set_ne hjb] at hj
        exact hinv.inj i j s hs0 hi hj
  · simp only
    rw [countP_set_fresh c.list b c.cfsize hbl hneg hinv.nonneg, hinv.count]
    push_cast
    rfl

theorem MapInv_of_map_eq (cfg : lfs_config) (c c1 : my_context) (hinv : MapInv cfg c)
    (hl : c1.list = c.list) (hc : c1.cfsize = c.cfsize) : MapInv cfg c1 := by
  obtain ⟨h1, h2, h3, h4, h5, h6, h7⟩ := hinv
  refine ⟨?_, ?_, ?_, ?_, ?_, ?_, h7⟩
  · rw [hl]; exact h1
  · rw [hc]; exact h2
  · rw [hl, hc]; exact h3
  · rw [hl, hc]; exact h4
  · rw [hl]; exact h5
  · rw [hl, hc]; exact h6

/-- While an entry is still unallocated the slot count is below the number of
blocks, so adding one to it does not overflow. -/
theorem MapInv_room (cfg : lfs_config) (c : my_context) (b : Nat) (hinv : MapInv cfg c)
    (hb : b < cfg.block_count) (hneg : c.list.getD b 0 < 0) :
    c.cfsize + 1 ≤ cfg.block_count ∧ wrap_i32 (c.cfsize + 1) = c.cfsize + 1 := by
  have hbl : b < c.list.length := by rw [hinv.len]; exact hb
  have h1 := countP_set_fresh c.list b c.cfsize hbl hneg hinv.nonneg
  have h2 := countP_le_length_int (c.list.set b c.cfsize)
  rw [h1, List.length_set, hinv.len] at h2
  have h3 : c.cfsize + 1 ≤ cfg.block_count := by
    rw [hinv.count]
    exact_mod_cast h2
  have h4 := hinv.small
  have h5 := hinv.nonneg
  exact ⟨h3, wrap_i32_small _ (by omega) (by omega)⟩

theorem seekpos_fresh_inv (cfg : lfs_config) (env : Nat → HostResp) (c : my_context)
    (b : Nat) (hinv : MapInv cfg c) (hb : b < cfg.block_count)
    (hneg : c.list.getD b 0 < 0) :
    lfs_fuse_bd_seekpos cfg env c b =
      (mul_u32 ((c.list.set b c.cfsize).getD b 0) cfg.block_size,
       { fd := (host_write env (host_lseek env c.fd 0 .SEEK_END).2
                  (List.replicate cfg.block_size 0)).2,
         list := c.list.set b c.cfsize,
         cfsize := c.cfsize + 1 }) := by
  rw [seekpos_fresh cfg env c b hneg, (MapInv_room cfg c b hinv hb hneg).2]

theorem MapInv_seekpos (cfg : lfs_config) (env : Nat → HostResp) (c : my_context) (b : Nat)
    (hinv : MapInv cfg c) (hb : b < cfg.block_count) :
    MapInv cfg (lfs_fuse_bd_seekpos cfg env c b).2 := by
  by_cases hneg : c.list.getD b 0 < 0
  · rw [seekpos_fresh_inv cfg env c b hinv hb hneg]
    exact MapInv_alloc cfg c b _ hinv hb hneg
  · rw [seekpos_allocated cfg env c b (not_lt.mp hneg)]
    exact hinv

theorem MapInv_created (c0 : my_context) (hl : c0.list = List.replicate 2048 (-1))
    (hc : c0.cfsize = 0) : MapInv created_cfg c0 := by
  have hsmall : ((created_cfg.block_count : Nat) : Int) < 2 ^ 31 := by
    have h2048 : created_cfg.block_count = 2048 := rfl
    rw [h2048]
    norm_num
  refine ⟨?_, ?_, ?_, ?_, ?_, ?_, hsmall⟩
  · rw [hl, List.length_replicate]
    rfl
  · rw [hc]
  · intro i s hs
    rw [hl, List.getElem?_replicate] at hs
    split at hs
    · left
      simpa using hs.symm
    · simp at hs
  · intro s h0 h1
    rw [hc] at h1
    omega
  · intro i j s h0 hi hj
    rw [hl, List.getElem?_replicate] at hi
    split at hi
    · have : (-1 : Int) = s := by simpa using hi
      omega
    · simp at hi
  · rw [hl, hc, List.countP_replicate]
    simp

theorem MapInv_exec (cfg : lfs_config) (env : Nat → HostResp) (fuel : Nat)
    (c : my_context) (op : Op) (code : Int) (c1 : my_context) (hinv : MapInv cfg c)
    (h : op.exec cfg env fuel c = some (code, c1)) : MapInv cfg c1 := by
  rcases exec_map cfg env fuel c op code c1 h with ⟨hl, hc, _⟩ | ⟨b, _, hb, hl, hc⟩
  · exact MapInv_of_map_eq cfg c c1 hinv hl hc
  · exact MapInv_of_map_eq cfg _ c1 (MapInv_seekpos cfg env c b hinv hb) hl hc

theorem MapInv_run (cfg : lfs_config) (env : Nat → HostResp) (c0 c : my_context)
    (ops : List Op) (hinv : MapInv cfg c0) (h : Run cfg env c0 ops c) : MapInv cfg c := by
  induction h with
  | nil => exact hinv
  | snoc op fuel code _ hstep ih => exact MapInv_exec cfg env fuel _ op code _ ih hstep

theorem reachable_cfg (cfg : lfs_config) (env : Nat → HostResp) (c : my_context)
    (h : Reachable cfg env c) : cfg = created_cfg := by
  obtain ⟨present, clock, c0, ops, hc, _⟩ := h
  exact (create_ok_inv env present clock cfg c0 hc).1

theorem MapInv_reachable (cfg : lfs_config) (env : Nat → HostResp) (c : my_context)
    (h : Reachable cfg env c) : MapInv cfg c := by
  obtain ⟨present, clock, c0, ops, hc, hrun⟩ := h
  obtain ⟨h1, h2, h3, _⟩ := create_ok_inv env present clock cfg c0 hc
  subst h1
  exact MapInv_run created_cfg env c0 c ops (MapInv_created c0 h2 h3) hrun

theorem seekpos_keeps_allocated (cfg : lfs_config) (env : Nat → HostResp) (c : my_context)
    (x b : Nat) (s : Int) (hs : 0 ≤ s) (hb : c.list[b]? = some s) :
    (lfs_fuse_bd_seekpos cfg env c x).2.list[b]? = some s := by
  by_cases hneg : c.list.getD x 0 < 0
  · rw [seekpos_fresh cfg env c x hneg]
    simp only
    have hxb : x ≠ b := by
      intro hxb
      subst hxb
      rw [getD_of_getElem? _ _ _ hb] at hneg
      omega
    rw [List.getElem?_set_ne hxb]
    exact hb
  · rw [seekpos_allocated cfg env c x (not_lt.mp hneg)]
    exact hb

theorem exec_keeps_allocated (cfg : lfs_config) (env : Nat → HostResp) (fuel : Nat)
    (c : my_context) (op : Op) (code : Int) (c1 : my_context)
    (h : op.exec cfg env fuel c = some (code, c1)) (b : Nat) (s : Int) (hs : 0 ≤ s)
    (hb : c.list[b]? = some s) : c1.list[b]? = some s := by
  rcases exec_map cfg env fuel c op code c1 h with ⟨hl, _, _⟩ | ⟨x, _, _, hl, _⟩
  · rw [hl]
    exact hb
  · rw [hl]
    exact seekpos_keeps_allocated cfg env c x b s hs hb

theorem run_keeps_allocated (cfg : lfs_config) (env : Nat → HostResp) (c0 c : my_context)
    (ops : List Op) (h : Run cfg env c0 ops c) (b : Nat) (s : Int) (hs : 0 ≤ s)
    (hb : c0.list[b]? = some s) : c.list[b]? = some s := by
  induction h with
  | nil => exact hb
  | snoc op fuel code _ hstep ih =>
    exact exec_keeps_allocated cfg env fuel _ op code _ hstep b s hs ih

theorem host_lseek_bytes (env : Nat → HostResp) (f : HostFile) (o : Int) (w : Whence) :
    (host_lseek env f o w).2.bytes = f.bytes := by
  unfold host_lseek
  simp only
  split
  · rfl
  · split <;> rfl

theorem host_lseek_end_ok (env : Nat → HostResp) (f : HostFile)
    (hok : ∀ e, env f.clock ≠ .fail e) :
    host_lseek env f 0 .SEEK_END =
      (.ok f.bytes.length, { f with pos := f.bytes.length, clock := f.clock + 1 }) := by
  unfold host_lseek
  cases hr : env f.clock with
  | full => simp
  | short k => simp
  | fail e => exact absurd hr (hok e)

theorem host_lseek_set_ok (env : Nat → HostResp) (f : HostFile) (o : Int) (ho : 0 ≤ o)
    (hok : ∀ e, env f.clock ≠ .fail e) :
    host_lseek env f o .SEEK_SET =
      (.ok o.toNat, { f with pos := o.toNat, clock := f.clock + 1 }) := by
  unfold host_lseek
  cases hr : env f.clock with
  | full => simp [not_lt.mpr ho]
  | short k => simp [not_lt.mpr ho]
  | fail e => exact absurd hr (hok e)

theorem host_write_bytes_length (env : Nat → HostResp) (f : HostFile) (buf : List Byte) :
    f.bytes.length ≤ (host_write env f buf).2.bytes.length := by
  unfold host_write
  split
  · exact le_refl _
  · exact length_le_write_at _ _ _

theorem seekpos_bytes_length (cfg : lfs_config) (env : Nat → HostResp) (c : my_context)
    (x : Nat) : c.fd.bytes.length ≤ (lfs_fuse_bd_seekpos cfg env c x).2.fd.bytes.length := by
  by_cases hneg : c.list.getD x 0 < 0
  · rw [seekpos_fresh cfg env c x hneg]
    simp only
    calc c.fd.bytes.length
        = (host_lseek env c.fd 0 .SEEK_END).2.bytes.length := by rw [host_lseek_bytes]
      _ ≤ _ := host_write_bytes_length _ _ _
  · rw [seekpos_allocated cfg env c x (not_lt.mp hneg)]

theorem resolve_all_keeps (cfg : lfs_config) (env : Nat → HostResp) (others : List Nat)
    (c : my_context) (b : Nat) (s : Int) (hs : 0 ≤ s) (hb : c.list[b]? = some s) :
    (resolve_all cfg env c others).list[b]? = some s ∧
      c.fd.bytes.length ≤ (resolve_all cfg env c others).fd.bytes.length := by
  induction others generalizing c with
  | nil => exact ⟨hb, le_refl _⟩
  | cons x xs ih =>
    have h1 := seekpos_keeps_allocated cfg env c x b s hs hb
    obtain ⟨h2, h3⟩ := ih (lfs_fuse_bd_seekpos cfg env c x).2 h1
    exact ⟨h2, le_trans (seekpos_bytes_length cfg env c x) h3⟩

theorem seekpos_result_allocated (cfg : lfs_config) (env : Nat → HostResp) (c : my_context)
    (b : Nat) (hb : b < c.list.length) (hcf : 0 ≤ c.cfsize) :
    ∃ s : Int, 0 ≤ s ∧ (lfs_fuse_bd_seekpos cfg env c b).2.list[b]? = some s ∧
      (lfs_fuse_bd_seekpos cfg env c b).1 = mul_u32 s cfg.block_size := by
  by_cases hneg : c.list.getD b 0 < 0
  · rw [seekpos_fresh cfg env c b hneg]
    refine ⟨c.cfsize, hcf, ?_, ?_⟩
    · simp only
      exact List.getElem?_set_self hb
    · simp only
      rw [getD_of_getElem? _ _ _ (List.getElem?_set_self hb)]
  · rw [seekpos_allocated cfg env c b (not_lt.mp hneg)]
    exact ⟨c.list.getD b 0, not_lt.mp hneg, getElem?_of_lt _ _ hb, rfl⟩

theorem seekpos_of_slot (cfg : lfs_config) (env : Nat → HostResp) (c : my_context)
    (b : Nat) (s : Int) (hs : 0 ≤ s) (hb : c.list[b]? = some s) :
    lfs_fuse_bd_seekpos cfg env c b = (mul_u32 s cfg.block_size, c) := by
  have hg := getD_of_getElem? _ _ _ hb
  rw [seekpos_allocated cfg env c b (by rw [hg]; exact hs), hg]

set_option maxRecDepth 100000 in
theorem demo_prog :
    lfs_fuse_bd_prog created_cfg ideal 1 created_ctx 2 0 demo_data =
      some (.ret 0 demo_ctx1 ()) := by
  decide!

set_option maxRecDepth 100000 in
theorem demo_exec :
    (Op.prog 2 0 demo_data).exec created_cfg ideal 1 created_ctx = some (0, demo_ctx1) := by
  decide!

theorem created_reachable : Reachable created_cfg ideal created_ctx :=
  ⟨false, 0, created_ctx, [], created_ok, Run.nil _⟩

theorem demo_run : Run created_cfg ideal created_ctx [Op.prog 2 0 demo_data] demo_ctx1 :=
  Run.snoc (Op.prog 2 0 demo_data) 1 0 (Run.nil _) demo_exec

theorem demo_reachable : Reachable created_cfg ideal demo_ctx1 :=
  ⟨false, 0, created_ctx, [Op.prog 2 0 demo_data], created_ok, demo_run⟩

theorem created_len : created_ctx.list.length = created_cfg.block_count :=
  List.length_replicate _ _

theorem grant_ideal (env : Nat → HostResp) (hideal : ∀ i, env i = .full) (i n : Nat) :
    (env i).grant n = .ok n := by
  rw [hideal i]
  rfl

theorem not_fail_of_ideal (env : Nat → HostResp) (hideal : ∀ i, env i = .full) (i : Nat) :
    ∀ e, env i ≠ .fail e := by
  intro e
  rw [hideal i]
  exact fun h => HostResp.noConfusion h

theorem prog_loop_nil (env : Nat → HostResp) (fuel : Nat) (f : HostFile) :
    prog_loop env fuel f [] = some (0, f) := by
  cases fuel <;> rfl

theorem read_loop_zero (env : Nat → HostResp) (fuel : Nat) (f : HostFile) (acc : List Byte) :
    read_loop env fuel f 0 acc = some (0, f, acc) := by
  cases fuel <;> rfl

theorem prog_loop_ideal (env : Nat → HostResp) (hideal : ∀ i, env i = .full) (fuel : Nat)
    (f : HostFile) (data : List Byte) (hd : data ≠ []) :
    prog_loop env (fuel + 1) f data =
      some (0, { bytes := write_at f.bytes f.pos data, pos := f.pos + data.length,
                 clock := f.clock + 1 }) := by
  cases data with
  | nil => exact absurd rfl hd
  | cons b bs =>
    simp only [prog_loop, host_write, grant_ideal env hideal]
    rw [List.drop_length, prog_loop_nil, List.take_length]

theorem read_loop_ideal (env : Nat → HostResp) (hideal : ∀ i, env i = .full) (fuel : Nat)
    (f : HostFile) (size : Nat) (hs : size ≠ 0) (hin : f.pos + size ≤ f.bytes.length) :
    read_loop env (fuel + 1) f size [] =
      some (0, { f with pos := f.pos + size, clock := f.clock + 1 },
            (f.bytes.drop f.pos).take size) := by
  cases size with
  | zero => exact absurd rfl hs
  | succ n =>
    have hl : ((f.bytes.drop f.pos).take (n + 1)).length = n + 1 := by
      rw [List.length_take, List.length_drop]
      omega
    simp only [read_loop, host_read, grant_ideal env hideal]
    rw [hl, Nat.sub_self, read_loop_zero, List.nil_append]

theorem seekpos_fst_nonneg (cfg : lfs_config) (env : Nat → HostResp) (c : my_context)
    (b : Nat) : 0 ≤ (lfs_fuse_bd_seekpos cfg env c b).1 := by
  unfold lfs_fuse_bd_seekpos
  exact mul_u32_nonneg _ _

theorem prog_ideal (cfg : lfs_config) (env : Nat → HostResp) (hideal : ∀ i, env i = .full)
    (fuel : Nat) (c : my_context) (b off : Nat) (data : List Byte)
    (hb : b < cfg.block_count) (hf : data = [] ∨ 0 < fuel) :
    ∃ clk, lfs_fuse_bd_prog cfg env fuel c b off data =
      some (.ret 0
        { (lfs_fuse_bd_seekpos cfg env c b).2 with
          fd := { bytes := write_at (lfs_fuse_bd_seekpos cfg env c b).2.fd.bytes
                    ((lfs_fuse_bd_seekpos cfg env c b).1 + off).toNat data,
                  pos := ((lfs_fuse_bd_seekpos cfg env c b).1 + off).toNat + data.length,
                  clock := clk } } ()) := by
  have h0 := seekpos_fst_nonneg cfg env c b
  have hls := host_lseek_set_ok env (lfs_fuse_bd_seekpos cfg env c b).2.fd
    ((lfs_fuse_bd_seekpos cfg env c b).1 + off) (by omega)
    (not_fail_of_ideal env hideal _)
  unfold lfs_fuse_bd_prog
  rw [if_neg (not_not.mpr hb)]
  simp only [if_neg (not_lt.mpr h0), hls]
  by_cases hd : data = []
  · subst hd
    rw [prog_loop_nil]
    exact ⟨(lfs_fuse_bd_seekpos cfg env c b).2.fd.clock + 1, by simp [write_at_nil]⟩
  · rcases hf with hf | hf
    · exact absurd hf hd
    · obtain ⟨k, rfl⟩ := Nat.exists_eq_succ_of_ne_zero (Nat.pos_iff_ne_zero.mp hf)
      rw [prog_loop_ideal env hideal k _ data hd]
      exact ⟨_, rfl⟩

theorem read_ideal (cfg : lfs_config) (env : Nat → HostResp) (hideal : ∀ i, env i = .full)
    (fuel : Nat) (c : my_context) (b off size : Nat)
    (hb : b < cfg.block_count)
    (hf : size = 0 ∨ (0 < fuel ∧
      ((lfs_fuse_bd_seekpos cfg env c b).1 + off).toNat + size ≤
        (lfs_fuse_bd_seekpos cfg env c b).2.fd.bytes.length)) :
    ∃ clk, lfs_fuse_bd_read cfg env fuel c b off size =
      some (.ret 0
        { (lfs_fuse_bd_seekpos cfg env c b).2 with
          fd := { bytes := (lfs_fuse_bd_seekpos cfg env c b).2.fd.bytes,
                  pos := ((lfs_fuse_bd_seekpos cfg env c b).1 + off).toNat + size,
                  clock := clk } }
        (((lfs_fuse_bd_seekpos cfg env c b).2.fd.bytes.drop
          ((lfs_fuse_bd_seekpos cfg env c b).1 + off).toNat).take size)) := by
  have h0 := seekpos_fst_nonneg cfg env c b
  have hls := host_lseek_set_ok env (lfs_fuse_bd_seekpos cfg env c b).2.fd
    ((lfs_fuse_bd_seekpos cfg env c b).1 + off) (by omega)
    (not_fail_of_ideal env hideal _)
  unfold lfs_fuse_bd_read
  rw [if_neg (not_not.mpr hb)]
  simp only [if_neg (not_lt.mpr h0), hls]
  by_cases hs : size = 0
  · subst hs
    rw [read_loop_zero]
    exact ⟨(lfs_fuse_bd_seekpos cfg env c b).2.fd.clock + 1, by simp⟩
  · rcases hf with hf | ⟨hf, hin⟩
    · exact absurd hf hs
    · obtain ⟨k, rfl⟩ := Nat.exists_eq_succ_of_ne_zero (Nat.pos_iff_ne_zero.mp hf)
      rw [read_loop_ideal env hideal k _ size hs hin]
      exact ⟨_, rfl⟩

theorem prog_some_fuel (cfg : lfs_config) (env : Nat → HostResp) (fuel : Nat)
    (c : my_context) (b off : Nat) (data : List Byte) (r : Outcome Unit)
    (hb : b < cfg.block_count) (hideal : ∀ i, env i = .full)
    (h : lfs_fuse_bd_prog cfg env fuel c b off data = some r) : data = [] ∨ 0 < fuel := by
  by_cases hd : data = []
  · exact Or.inl hd
  · right
    rcases Nat.eq_zero_or_pos fuel with hz | hp
    · exfalso
      subst hz
      have h0 := seekpos_fst_nonneg cfg env c b
      have hls := host_lseek_set_ok env (lfs_fuse_bd_seekpos cfg env c b).2.fd
        ((lfs_fuse_bd_seekpos cfg env c b).1 + off) (by omega)
        (not_fail_of_ideal env hideal _)
      unfold lfs_fuse_bd_prog at h
      rw [if_neg (not_not.mpr hb)] at h
      simp only [if_neg (not_lt.mpr h0), hls] at h
      cases data with
      | nil => exact hd rfl
      | cons x xs => simp [prog_loop] at h
    · exact hp

theorem host_read_bytes (env : Nat → HostResp) (f : HostFile) (n : Nat) :
    (host_read env f n).2.bytes = f.bytes := by
  unfold host_read
  split <;> rfl

theorem read_loop_bytes (env : Nat → HostResp) (fuel : Nat) (f : HostFile) (size : Nat)
    (acc : List Byte) (code : Int) (f1 : HostFile) (buf : List Byte)
    (h : read_loop env fuel f size acc = some (code, f1, buf)) : f1.bytes = f.bytes := by
  induction fuel generalizing f size acc with
  | zero =>
    cases size with
    | zero =>
      simp only [read_loop, Option.some.injEq, Prod.mk.injEq] at h
      rw [← h.2.1]
    | succ n => simp [read_loop] at h
  | succ k ih =>
    cases size with
    | zero =>
      simp only [read_loop, Option.some.injEq, Prod.mk.injEq] at h
      rw [← h.2.1]
    | succ n =>
      simp only [read_loop] at h
      have hb := host_read_bytes env f (n + 1)
      split at h
      · rename_i e f2 heq
        simp only [Option.some.injEq, Prod.mk.injEq] at h
        rw [← h.2.1, ← hb, heq]
      · rename_i d f2 heq
        rw [ih f2 _ _ h, ← hb, heq]

theorem prog_loop_length (env : Nat → HostResp) (fuel : Nat) (f : HostFile)
    (data : List Byte) (code : Int) (f1 : HostFile)
    (h : prog_loop env fuel f data = some (code, f1)) :
    f.bytes.length ≤ f1.bytes.length := by
  induction fuel generalizing f data with
  | zero =>
    cases data with
    | nil =>
      simp only [prog_loop, Option.some.injEq, Prod.mk.injEq] at h
      rw [← h.2]
    | cons x xs => simp [prog_loop] at h
  | succ k ih =>
    cases data with
    | nil =>
      simp only [prog_loop, Option.some.injEq, Prod.mk.injEq] at h
      rw [← h.2]
    | cons x xs =>
      simp only [prog_loop] at h
      have hb := host_write_bytes_length env f (x :: xs)
      split at h
      · rename_i e f2 heq
        simp only [Option.some.injEq, Prod.mk.injEq] at h
        rw [← h.2]
        rw [heq] at hb
        exact hb
      · rename_i n f2 heq
        rw [heq] at hb
        exact le_trans hb (ih f2 _ h)

theorem read_ret_bytes (cfg : lfs_config) (env : Nat → HostResp) (fuel : Nat)
    (c : my_context) (b off size : Nat) (code : Int) (c1 : my_context) (buf : List Byte)
    (h : lfs_fuse_bd_read cfg env fuel c b off size = some (.ret code c1 buf)) :
    c1.fd.bytes = (lfs_fuse_bd_seekpos cfg env c b).2.fd.bytes := by
  unfold lfs_fuse_bd_read at h
  split at h
  · simp at h
  · simp only [] at h
    split at h
    · simp only [Option.some.injEq, Outcome.ret.injEq] at h
      rw [← h.2.1]
    · have hl := host_lseek_bytes env (lfs_fuse_bd_seekpos cfg env c b).2.fd
        ((lfs_fuse_bd_seekpos cfg env c b).1 + off) .SEEK_SET
      split at h
      · rename_i e f heq
        simp only [Option.some.injEq, Outcome.ret.injEq] at h
        rw [← h.2.1, ← hl, heq]
      · rename_i p f heq
        split at h
        · simp at h
        · rename_i code1 f1 buf1 hloop
          simp only [Option.some.injEq, Outcome.ret.injEq] at h
          rw [← h.2.1]
          simp only
          rw [read_loop_bytes env fuel f size [] code1 f1 buf1 hloop, ← hl, heq]

theorem prog_ret_length (cfg : lfs_config) (env : Nat → HostResp) (fuel : Nat)
    (c : my_context) (b off : Nat) (data : List Byte) (code : Int) (c1 : my_context)
    (h : lfs_fuse_bd_prog cfg env fuel c b off data = some (.ret code c1 ())) :
    (lfs_fuse_bd_seekpos cfg env c b).2.fd.bytes.length ≤ c1.fd.bytes.length := by
  unfold lfs_fuse_bd_prog at h
  split at h
  · simp at h
  · simp only [] at h
    split at h
    · simp only [Option.some.injEq, Outcome.ret.injEq] at h
      rw [← h.2.1]
    · have hl := host_lseek_bytes env (lfs_fuse_bd_seekpos cfg env c b).2.fd
        ((lfs_fuse_bd_seekpos cfg env c b).1 + off) .SEEK_SET
      split at h
      · rename_i e f heq
        simp only [Option.some.injEq, Outcome.ret.injEq] at h
        rw [← h.2.1]
        simp only
        rw [← hl, heq]
      · rename_i p f heq
        split at h
        · simp at h
        · rename_i code1 f1 hloop
          simp only [Option.some.injEq, Outcome.ret.injEq] at h
          rw [← h.2.1]
          simp only
          rw [← hl, heq]
          exact prog_loop_length env fuel f data code1 f1 hloop

theorem sync_bytes (cfg : lfs_config) (env : Nat → HostResp) (c : my_context) (code : Int)
    (c1 : my_context) (h : lfs_fuse_bd_sync cfg env c = .ret code c1 ()) :
    c1.list = c.list ∧ c1.cfsize = c.cfsize ∧ c1.fd.bytes = c.fd.bytes := by
  unfold lfs_fuse_bd_sync host_fsync at h
  split at h
  · rename_i e f heq
    simp only [Outcome.ret.injEq] at h
    rw [← h.2.1]
    refine ⟨rfl, rfl, ?_⟩
    split at heq
    · simp only [Prod.mk.injEq] at heq
      rw [← heq.2]
    · simp only [Prod.mk.injEq] at heq
      rw [← heq.2]
  · rename_i u f heq
    simp only [Outcome.ret.injEq] at h
    rw [← h.2.1]
    refine ⟨rfl, rfl, ?_⟩
    split at heq
    · simp only [Prod.mk.injEq] at heq
      rw [← heq.2]
    · simp only [Prod.mk.injEq] at heq
      rw [← heq.2]

/-- The contents of the file after a resolution whose seek and write both go
through in full: unchanged for an allocated entry, one zero block longer for
a fresh one. -/
theorem seekpos_extend_bytes (cfg : lfs_config) (env : Nat → HostResp) (c : my_context)
    (b : Nat) (hun : c.list.getD b 0 < 0)
    (hseek : ∀ e, env c.fd.clock ≠ .fail e)
    (hwrite : (env (c.fd.clock + 1)).grant cfg.block_size = .ok cfg.block_size) :
    (lfs_fuse_bd_seekpos cfg env c b).2.fd.bytes =
      c.fd.bytes ++ List.replicate cfg.block_size 0 := by
  rw [seekpos_fresh cfg env c b hun]
  simp only
  rw [host_lseek_end_ok env c.fd hseek]
  unfold host_write
  simp only [List.length_replicate, hwrite]
  rw [List.take_of_length_le (by simp)]
  exact write_at_end _ _

/-- In a reachable state `cfsize` lies between 0 and the 2048 blocks of the
created geometry. -/
theorem reachable_cfsize (cfg : lfs_config) (env : Nat → HostResp) (c : my_context)
    (h : Reachable cfg env c) : 0 ≤ c.cfsize ∧ c.cfsize ≤ 2048 := by
  have hcfg := reachable_cfg cfg env c h
  subst hcfg
  have hinv := MapInv_reachable created_cfg env c h
  refine ⟨hinv.nonneg, ?_⟩
  have hl := countP_le_length_int c.list
  have hlen : c.list.length = 2048 := hinv.len
  rw [hinv.count]
  exact_mod_cast (hlen ▸ hl)

/-- Slots of a well-formed map of the created geometry are small enough for
the offset product not to wrap. -/
theorem slot_offset (c : my_context) (b : Nat) (s : Int) (hinv : MapInv created_cfg c)
    (hs : 0 ≤ s) (hb : c.list[b]? = some s) :
    s < c.cfsize ∧ c.cfsize ≤ 2048 ∧ mul_u32 s created_cfg.block_size = s * 512 := by
  have h1 : s < c.cfsize := by
    rcases hinv.range b s hb with h | h
    · omega
    · exact h.2
  have h2 : c.cfsize ≤ 2048 := by
    have hc := hinv.count
    have hl := countP_le_length_int c.list
    have hlen : c.list.length = 2048 := hinv.len
    rw [hc]
    exact_mod_cast (hlen ▸ hl)
  refine ⟨h1, h2, ?_⟩
  have h3 : created_cfg.block_size = 512 := rfl
  rw [h3, mul_u32_small s 512 hs (by push_cast; omega)]
  rfl

theorem take_drop_append_left (l z : List Byte) (q n : Nat) (h : q + n ≤ l.length) :
    ((l ++ z).drop q).take n = (l.drop q).take n := by
  rw [List.drop_append_of_le_length (by omega), List.take_append_of_le_length]
  rw [List.length_drop]
  omega

theorem touched_snoc_none (ops : List Op) (op : Op) (h : op.touch = none) :
    touched (ops ++ [op]) = touched ops := by
  unfold touched
  rw [List.filterMap_append]
  simp [List.filterMap, h]

theorem touched_snoc_some (ops : List Op) (op : Op) (b : Nat) (h : op.touch = some b) :
    touched (ops ++ [op]) = insert b (touched ops) := by
  unfold touched
  rw [List.filterMap_append]
  simp only [List.filterMap, h, List.toFinset_append, List.toFinset_cons, List.toFinset_nil]
  ext x
  simp only [Finset.mem_union, Finset.mem_insert, Finset.mem_singleton, List.mem_toFinset,
    insert_emptyc_eq]
  tauto

/-- The allocated entries are exactly the blocks touched so far, and `cfsize`
counts them. -/
theorem touched_run (cfg : lfs_config) (env : Nat → HostResp) (c0 c : my_context)
    (ops : List Op) (hinv0 : MapInv cfg c0) (h0 : ∀ (b : Nat) (s : Int), c0.list[b]? = some s → s < 0)
    (hc0 : c0.cfsize = 0) (hrun : Run cfg env c0 ops c) :
    (∀ b : Nat, b ∈ touched ops ↔ ∃ s : Int, 0 ≤ s ∧ c.list[b]? = some s) ∧
      c.cfsize = ((touched ops).card : Int) := by
  induction hrun with
  | nil =>
    refine ⟨?_, ?_⟩
    · intro b
      constructor
      · intro hb
        simp [touched] at hb
      · rintro ⟨s, hs, hb⟩
        have := h0 b s hb
        omega
    · rw [hc0]
      simp [touched]
  | @snoc cm c1 ops1 op fuel code hrun1 hstep ih =>
    obtain ⟨ih1, ih2⟩ := ih
    have hinv := MapInv_run cfg env c0 cm ops1 hinv0 hrun1
    rcases exec_map cfg env fuel cm op code c1 hstep with ⟨hl, hc, ht⟩ | ⟨b, ht, hb, hl, hc⟩
    · rw [touched_snoc_none ops1 op ht, hl, hc]
      exact ⟨ih1, ih2⟩
    · rw [touched_snoc_some ops1 op b ht, hl, hc]
      have hbl : b < cm.list.length := by rw [hinv.len]; exact hb
      by_cases hneg : cm.list.getD b 0 < 0
      · have hnot : b ∉ touched ops1 := by
          intro hmem
          obtain ⟨s, hs, hbs⟩ := (ih1 b).mp hmem
          rw [getD_of_getElem? _ _ _ hbs] at hneg
          omega
        rw [seekpos_fresh_inv cfg env cm b hinv hb hneg]
        simp only
        refine ⟨?_, ?_⟩
        · intro x
          rw [Finset.mem_insert]
          constructor
          · rintro (hx | hx)
            · subst hx
              exact ⟨cm.cfsize, hinv.nonneg, List.getElem?_set_self hbl⟩
            · obtain ⟨s, hs, hxs⟩ := (ih1 x).mp hx
              have hbx : b ≠ x := by
                intro he
                subst he
                exact hnot hx
              exact ⟨s, hs, by rw [List.getElem?_set_ne hbx]; exact hxs⟩
          · rintro ⟨s, hs, hxs⟩
            by_cases hbx : b = x
            · exact Or.inl hbx.symm
            · right
              rw [List.getElem?_set_ne hbx] at hxs
              exact (ih1 x).mpr ⟨s, hs, hxs⟩
        · rw [Finset.card_insert_of_not_mem hnot, ih2]
          push_cast
          rfl
      · rw [seekpos_allocated cfg env cm b (not_lt.mp hneg)]
        simp only
        have hmem : b ∈ touched ops1 :=
          (ih1 b).mpr ⟨_, not_lt.mp hneg, getElem?_of_lt _ _ hbl⟩
        rw [Finset.insert_eq_of_mem hmem]
        exact ⟨ih1, ih2⟩

theorem errno_neg (e : Errno) : -(e.val : Int) < 0 := by
  have := e.property
  omega

theorem grant_progress (env : Nat → HostResp) (hp : ∀ i, env i ≠ .short 0) (i m : Nat)
    (hm : 1 ≤ m) :
    (∃ e, (env i).grant m = .error e) ∨ ∃ n, (env i).grant m = .ok n ∧ 1 ≤ n ∧ n ≤ m := by
  cases hr : env i with
  | full => exact Or.inr ⟨m, rfl, hm, le_refl _⟩
  | short k =>
    right
    refine ⟨min k m, rfl, ?_, min_le_right _ _⟩
    have hk : k ≠ 0 := by
      intro hk
      subst hk
      exact hp i hr
    omega
  | fail e => exact Or.inl ⟨e, rfl⟩

theorem host_write_err (env : Nat → HostResp) (f : HostFile) (buf : List Byte) (e : Errno)
    (h : (env f.clock).grant buf.length = .error e) :
    host_write env f buf = (.error e, { f with clock := f.clock + 1 }) := by
  unfold host_write
  rw [h]

theorem host_write_ok (env : Nat → HostResp) (f : HostFile) (buf : List Byte) (n : Nat)
    (h : (env f.clock).grant buf.length = .ok n) :
    host_write env f buf =
      (.ok n, { bytes := write_at f.bytes f.pos (buf.take n), pos := f.pos + n,
                clock := f.clock + 1 }) := by
  unfold host_write
  rw [h]

theorem host_read_err (env : Nat → HostResp) (f : HostFile) (m : Nat) (e : Errno)
    (h : (env f.clock).grant m = .error e) :
    host_read env f m = (.error e, { f with clock := f.clock + 1 }) := by
  unfold host_read
  rw [h]

theorem host_read_ok (env : Nat → HostResp) (f : HostFile) (m n : Nat)
    (h : (env f.clock).grant m = .ok n) :
    host_read env f m =
      (.ok ((f.bytes.drop f.pos).take n),
        { f with pos := f.pos + ((f.bytes.drop f.pos).take n).length,
                 clock := f.clock + 1 }) := by
  unfold host_read
  rw [h]

/-- With a host that never answers a write with zero bytes, the prog loop
finishes within `data.length` iterations: with a negative code, or with 0
after storing `data` at the offset the descriptor had on entry. -/
theorem prog_loop_progress (env : Nat → HostResp) (hp : ∀ i, env i ≠ .short 0)
    (fuel : Nat) (f : HostFile) (data : List Byte) (hfuel : data.length ≤ fuel) :
    ∃ code f1, prog_loop env fuel f data = some (code, f1) ∧
      (code < 0 ∨
        (code = 0 ∧ f1.pos = f.pos + data.length ∧
          (f1.bytes.drop f.pos).take data.length = data ∧
          (∀ i, i < f.pos → i < f.bytes.length → f1.bytes[i]? = f.bytes[i]?) ∧
          f.bytes.length ≤ f1.bytes.length)) := by
  induction fuel generalizing f data with
  | zero =>
    have hd : data = [] := List.length_eq_zero.mp (Nat.le_zero.mp hfuel)
    subst hd
    exact ⟨0, f, rfl, Or.inr ⟨rfl, rfl, rfl, fun _ _ _ => rfl, le_refl _⟩⟩
  | succ k ih =>
    cases data with
    | nil => exact ⟨0, f, rfl, Or.inr ⟨rfl, rfl, rfl, fun _ _ _ => rfl, le_refl _⟩⟩
    | cons x xs =>
      rcases grant_progress env hp f.clock (x :: xs).length (by simp) with
        ⟨e, he⟩ | ⟨n, hn, hn1, hn2⟩
      · refine ⟨-(e.val : Int), { f with clock := f.clock + 1 }, ?_, Or.inl (errno_neg e)⟩
        simp only [prog_loop, host_write_err env f (x :: xs) e he]
      · have hstep : prog_loop env (k + 1) f (x :: xs) =
            prog_loop env k
              { bytes := write_at f.bytes f.pos ((x :: xs).take n), pos := f.pos + n,
                clock := f.clock + 1 } ((x :: xs).drop n) := by
          simp only [prog_loop, host_write_ok env f (x :: xs) n hn]
        have hdl : ((x :: xs).drop n).length ≤ k := by
          rw [List.length_drop]
          have : (x :: xs).length ≤ k + 1 := hfuel
          omega
        obtain ⟨code, f1, hrun, hres⟩ := ih
          { bytes := write_at f.bytes f.pos ((x :: xs).take n), pos := f.pos + n,
            clock := f.clock + 1 } ((x :: xs).drop n) hdl
        refine ⟨code, f1, by rw [hstep]; exact hrun, ?_⟩
        rcases hres with hneg | ⟨hz, hpos, hwin, hframe, hlen⟩
        · exact Or.inl hneg
        · right
          simp only at hpos hwin hframe hlen
          have htl : ((x :: xs).take n).length = n := by
            rw [List.length_take]
            exact min_eq_left hn2
          have htne : (x :: xs).take n ≠ [] := by
            intro h0
            rw [h0] at htl
            simp at htl
            omega
          have hwl := length_write_at f.bytes f.pos _ htne
          rw [htl] at hwl
          rw [List.length_drop] at hpos hwin
          refine ⟨hz, by rw [hpos]; omega, ?_, ?_, ?_⟩
          · apply List.ext_getElem?
            intro j
            by_cases hj : j < (x :: xs).length
            · rw [List.getElem?_take_of_lt hj, List.getElem?_drop]
              by_cases hjn : j < n
              · rw [hframe (f.pos + j) (by omega) (by rw [hwl]; omega),
                  getElem?_write_at_mid _ _ _ _ (by rw [htl]; exact hjn),
                  List.getElem?_take_of_lt hjn]
              · have h1 : j - n < (x :: xs).length - n := by omega
                have h2 := congrArg (fun l => l[j - n]?) hwin
                simp only at h2
                rw [List.getElem?_take_of_lt h1, List.getElem?_drop, List.getElem?_drop] at h2
                have e1 : f.pos + n + (j - n) = f.pos + j := by omega
                have e2 : n + (j - n) = j := by omega
                rw [e1, e2] at h2
                exact h2
            · rw [List.getElem?_eq_none (by simp only [List.length_take]; omega),
                List.getElem?_eq_none (by omega)]
          · intro i hi hil
            rw [hframe i (by omega) (by rw [hwl]; omega)]
            exact getElem?_write_at_lt _ _ _ _ hi hil
          · have := length_le_write_at f.bytes f.pos ((x :: xs).take n)
            omega

/-- With a host that never answers a read with zero bytes and a request that
lies inside the file, the read loop finishes within `size` iterations: with a
negative code, or with 0 after delivering the `size` bytes that follow the
offset the descriptor had on entry. -/
theorem read_loop_progress (env : Nat → HostResp) (hp : ∀ i, env i ≠ .short 0)
    (fuel : Nat) (f : HostFile) (size : Nat) (acc : List Byte) (hfuel : size ≤ fuel)
    (hin : f.pos + size ≤ f.bytes.length) :
    ∃ code f1 buf, read_loop env fuel f size acc = some (code, f1, buf) ∧
      (code < 0 ∨
        (code = 0 ∧ buf = acc ++ (f.bytes.drop f.pos).take size ∧
          f1.pos = f.pos + size ∧ f1.bytes = f.bytes)) := by
  induction fuel generalizing f size acc with
  | zero =>
    have hs : size = 0 := Nat.le_zero.mp hfuel
    subst hs
    exact ⟨0, f, acc, rfl, Or.inr ⟨rfl, by simp, rfl, rfl⟩⟩
  | succ k ih =>
    cases size with
    | zero => exact ⟨0, f, acc, rfl, Or.inr ⟨rfl, by simp, rfl, rfl⟩⟩
    | succ m =>
      rcases grant_progress env hp f.clock (m + 1) (by omega) with
        ⟨e, he⟩ | ⟨n, hn, hn1, hn2⟩
      · refine ⟨-(e.val : Int), { f with clock := f.clock + 1 }, acc, ?_,
          Or.inl (errno_neg e)⟩
        simp only [read_loop, host_read_err env f (m + 1) e he]
      · have hdl : ((f.bytes.drop f.pos).take n).length = n := by
          rw [List.length_take, List.length_drop]
          omega
        have hstep : read_loop env (k + 1) f (m + 1) acc =
            read_loop env k
              { f with pos := f.pos + ((f.bytes.drop f.pos).take n).length,
                       clock := f.clock + 1 }
              (m + 1 - ((f.bytes.drop f.pos).take n).length)
              (acc ++ (f.bytes.drop f.pos).take n) := by
          simp only [read_loop, host_read_ok env f (m + 1) n hn]
        obtain ⟨code, f1, buf, hrun, hres⟩ := ih
          { f with pos := f.pos + ((f.bytes.drop f.pos).take n).length,
                   clock := f.clock + 1 }
          (m + 1 - ((f.bytes.drop f.pos).take n).length)
          (acc ++ (f.bytes.drop f.pos).take n)
          (by rw [hdl]; omega) (by simp only; rw [hdl]; omega)
        refine ⟨code, f1, buf, by rw [hstep]; exact hrun, ?_⟩
        rcases hres with hneg | ⟨hz, hbuf, hpos, hby⟩
        · exact Or.inl hneg
        · right
          simp only at hbuf hpos hby
          rw [hdl] at hbuf hpos
          refine ⟨hz, ?_, by rw [hpos]; omega, hby⟩
          rw [hbuf, List.append_assoc]
          congr 1
          have e1 : m + 1 = n + (m + 1 - n) := by omega
          rw [← List.drop_drop, ← List.take_add, ← e1]

theorem seekpos_fst (cfg : lfs_config) (env : Nat → HostResp) (c : my_context) (b : Nat) :
    (lfs_fuse_bd_seekpos cfg env c b).1 =
      mul_u32 ((lfs_fuse_bd_seekpos cfg env c b).2.list.getD b 0) cfg.block_size := rfl

theorem host_lseek_fail (env : Nat → HostResp) (f : HostFile) (o : Int) (w : Whence)
    (e : Errno) (h : env f.clock = .fail e) :
    host_lseek env f o w = (.error e, { f with clock := f.clock + 1 }) := by
  unfold host_lseek
  rw [h]

theorem fail_or_not (r : HostResp) : (∃ e, r = .fail e) ∨ ∀ e, r ≠ .fail e := by
  cases r with
  | full => exact Or.inr (fun e h => HostResp.noConfusion h)
  | short k => exact Or.inr (fun e h => HostResp.noConfusion h)
  | fail e => exact Or.inl ⟨e, rfl⟩

theorem prog_progress (cfg : lfs_config) (env : Nat → HostResp) (ctx : my_context)
    (block off : Nat) (hb : block < cfg.block_count) (hp : ∀ i, env i ≠ .short 0)
    (data : List Byte) (fuel : Nat) (hfuel : data.length ≤ fuel) :
    ∃ (code : Int) (c1 : my_context),
      lfs_fuse_bd_prog cfg env fuel ctx block off data = some (.ret code c1 ()) ∧
      (code < 0 ∨ (code = 0 ∧
        (c1.fd.bytes.drop
            (mul_u32 (c1.list.getD block 0) cfg.block_size + off).toNat).take data.length
          = data ∧
        c1.fd.pos =
          (mul_u32 (c1.list.getD block 0) cfg.block_size + off).toNat + data.length)) := by
  have h0 := seekpos_fst_nonneg cfg env ctx block
  have hfst := seekpos_fst cfg env ctx block
  unfold lfs_fuse_bd_prog
  rw [if_neg (not_not.mpr hb)]
  simp only [if_neg (not_lt.mpr h0)]
  rcases fail_or_not (env (lfs_fuse_bd_seekpos cfg env ctx block).2.fd.clock) with
    ⟨e, he⟩ | hok
  · rw [host_lseek_fail env _ _ _ e he]
    exact ⟨_, _, rfl, Or.inl (errno_neg e)⟩
  · rw [host_lseek_set_ok env _ _ (by omega) hok]
    obtain ⟨code, f1, hrun, hres⟩ := prog_loop_progress env hp fuel
      { (lfs_fuse_bd_seekpos cfg env ctx block).2.fd with
        pos := ((lfs_fuse_bd_seekpos cfg env ctx block).1 + off).toNat,
        clock := (lfs_fuse_bd_seekpos cfg env ctx block).2.fd.clock + 1 } data hfuel
    simp only [hrun]
    refine ⟨code, _, rfl, ?_⟩
    rcases hres with hneg | ⟨hz, hpos, hwin, _, _⟩
    · exact Or.inl hneg
    · right
      simp only at hpos hwin ⊢
      rw [← hfst]
      exact ⟨hz, hwin, hpos⟩

theorem read_progress (cfg : lfs_config) (env : Nat → HostResp) (ctx : my_context)
    (block off : Nat) (hb : block < cfg.block_count) (hp : ∀ i, env i ≠ .short 0)
    (size fuel : Nat) (hfuel : size ≤ fuel)
    (hin : ((lfs_fuse_bd_seekpos cfg env ctx block).1 + off).toNat + size ≤
      (lfs_fuse_bd_seekpos cfg env ctx block).2.fd.bytes.length) :
    ∃ (code : Int) (c1 : my_context) (buf : List Byte),
      lfs_fuse_bd_read cfg env fuel ctx block off size = some (.ret code c1 buf) ∧
      (code < 0 ∨ (code = 0 ∧ buf.length = size ∧
        buf = (c1.fd.bytes.drop
            (mul_u32 (c1.list.getD block 0) cfg.block_size + off).toNat).take size ∧
        c1.fd.pos =
          (mul_u32 (c1.list.getD block 0) cfg.block_size + off).toNat + size)) := by
  have h0 := seekpos_fst_nonneg cfg env ctx block
  have hfst := seekpos_fst cfg env ctx block
  unfold lfs_fuse_bd_read
  rw [if_neg (not_not.mpr hb)]
  simp only [if_neg (not_lt.mpr h0)]
  rcases fail_or_not (env (lfs_fuse_bd_seekpos cfg env ctx block).2.fd.clock) with
    ⟨e, he⟩ | hok
  · rw [host_lseek_fail env _ _ _ e he]
    exact ⟨_, _, _, rfl, Or.inl (errno_neg e)⟩
  · rw [host_lseek_set_ok env _ _ (by omega) hok]
    obtain ⟨code, f1, buf, hrun, hres⟩ := read_loop_progress env hp fuel
      { (lfs_fuse_bd_seekpos cfg env ctx block).2.fd with
        pos := ((lfs_fuse_bd_seekpos cfg env ctx block).1 + off).toNat,
        clock := (lfs_fuse_bd_seekpos cfg env ctx block).2.fd.clock + 1 } size []
      hfuel hin
    simp only [hrun]
    refine ⟨code, _, buf, rfl, ?_⟩
    rcases hres with hneg | ⟨hz, hbuf, hpos, hby⟩
    · exact Or.inl hneg
    · right
      simp only [List.nil_append] at hpos hbuf hby ⊢
      rw [← hfst, hby]
      refine ⟨hz, ?_, hbuf, hpos⟩
      rw [hbuf, List.length_take, List.length_drop]
      omega

theorem prog_loop_stalled (fuel : Nat) (f : HostFile) (x : Byte) (xs : List Byte) :
    prog_loop stalled fuel f (x :: xs) = none := by
  induction fuel generalizing f with
  | zero => rfl
  | succ k ih =>
    have hw : host_write stalled f (x :: xs) =
        (.ok 0, { bytes := write_at f.bytes f.pos ((x :: xs).take 0), pos := f.pos + 0,
                  clock := f.clock + 1 }) :=
      host_write_ok stalled f (x :: xs) 0 (by simp [stalled, HostResp.grant])
    simp only [prog_loop, hw, List.drop_zero]
    exact ih _

theorem prog_stalled (cfg : lfs_config) (c : my_context) (b off fuel : Nat) (x : Byte)
    (xs : List Byte) (hb : b < cfg.block_count) :
    lfs_fuse_bd_prog cfg stalled fuel c b off (x :: xs) = none := by
  have h0 := seekpos_fst_nonneg cfg stalled c b
  unfold lfs_fuse_bd_prog
  rw [if_neg (not_not.mpr hb)]
  simp only [if_neg (not_lt.mpr h0)]
  rw [host_lseek_set_ok stalled _ _ (by omega) (fun e h => HostResp.noConfusion h)]
  simp only [prog_loop_stalled]

set_option maxRecDepth 100000 in
theorem demo_prog_other :
    lfs_fuse_bd_prog created_cfg ideal 1 demo_ctx1 5 0 [1, 2, 3] =
      some (.ret 0 demo_ctx2 ()) := by
  decide!

theorem ideal_full : ∀ i, ideal i = .full := fun _ => rfl

theorem demo_data_length : demo_data.length = 512 := List.length_replicate _ _

theorem demo_in_bounds : ∀ op ∈ [Op.prog 2 0 demo_data], op.in_bounds created_cfg := by
  intro op hop
  rw [List.mem_singleton] at hop
  subst hop
  exact ⟨by decide, by rw [demo_data_length]; decide⟩

set_option maxRecDepth 100000 in
theorem demo_slot : demo_ctx1.list[2]? = some 0 := by
  decide!

theorem trickle_progress : ∀ i, trickle i ≠ .short 0 := by
  intro i h
  simp [trickle] at h

theorem read_loop_eof (env : Nat → HostResp) (hideal : ∀ i, env i = .full) (fuel : Nat)
    (f : HostFile) (n : Nat) (acc : List Byte) (h : f.bytes.length ≤ f.pos) :
    read_loop env fuel f (n + 1) acc = none := by
  induction fuel generalizing f acc with
  | zero => rfl
  | succ k ih =>
    have hd : (f.bytes.drop f.pos).take (n + 1) = [] := by
      rw [List.drop_eq_nil_of_le h, List.take_nil]
    simp only [read_loop, host_read_ok env f (n + 1) (n + 1) (grant_ideal env hideal _ _), hd,
      List.length_nil, Nat.sub_zero, Nat.add_zero, List.append_nil]
    exact ih _ acc h

theorem read_loop_past_end (env : Nat → HostResp) (hideal : ∀ i, env i = .full) (fuel : Nat)
    (f : HostFile) (n : Nat) (acc : List Byte) (h : f.bytes.length < f.pos + (n + 1)) :
    read_loop env fuel f (n + 1) acc = none := by
  cases fuel with
  | zero => rfl
  | succ k =>
    have hl : ((f.bytes.drop f.pos).take (n + 1)).length < n + 1 := by
      rw [List.length_take, List.length_drop]
      omega
    obtain ⟨m, hm⟩ : ∃ m, n + 1 - ((f.bytes.drop f.pos).take (n + 1)).length = m + 1 :=
      ⟨n - ((f.bytes.drop f.pos).take (n + 1)).length, by omega⟩
    simp only [read_loop, host_read_ok env f (n + 1) (n + 1) (grant_ideal env hideal _ _)]
    rw [hm]
    apply read_loop_eof env hideal
    simp only [List.length_take, List.length_drop]
    omega

theorem read_ideal_past_end (cfg : lfs_config) (env : Nat → HostResp)
    (hideal : ∀ i, env i = .full) (fuel : Nat) (c : my_context) (b off n : Nat)
    (hb : b < cfg.block_count)
    (hpast : (lfs_fuse_bd_seekpos cfg env c b).2.fd.bytes.length <
      ((lfs_fuse_bd_seekpos cfg env c b).1 + off).toNat + (n + 1)) :
    lfs_fuse_bd_read cfg env fuel c b off (n + 1) = none := by
  have h0 := seekpos_fst_nonneg cfg env c b
  have hls := host_lseek_set_ok env (lfs_fuse_bd_seekpos cfg env c b).2.fd
    ((lfs_fuse_bd_seekpos cfg env c b).1 + off) (by omega)
    (not_fail_of_ideal env hideal _)
  unfold lfs_fuse_bd_read
  rw [if_neg (not_not.mpr hb)]
  simp only [if_neg (not_lt.mpr h0), hls]
  rw [read_loop_past_end env hideal fuel
    { bytes := (lfs_fuse_bd_seekpos cfg env c b).2.fd.bytes,
      pos := ((lfs_fuse_bd_seekpos cfg env c b).1 + off).toNat,
      clock := (lfs_fuse_bd_seekpos cfg env c b).2.fd.clock + 1 } n [] hpast]

set_option maxRecDepth 100000 in
theorem created_resolve0 :
    (lfs_fuse_bd_seekpos created_cfg ideal created_ctx 0).1 = 0 ∧
    (lfs_fuse_bd_seekpos created_cfg ideal created_ctx 0).2.fd.bytes.length = 512 := by
  decide!

theorem grant_le (r : HostResp) (m n : Nat) (h : r.grant m = .ok n) : n ≤ m := by
  cases r with
  | full =>
    simp only [HostResp.grant, Except.ok.injEq] at h
    omega
  | short k =>
    simp only [HostResp.grant, Except.ok.injEq] at h
    omega
  | fail e => simp [HostResp.grant] at h

theorem grant_cases (r : HostResp) (m : Nat) :
    (∃ e, r.grant m = .error e) ∨ ∃ n, r.grant m = .ok n ∧ n ≤ m := by
  cases hr : r.grant m with
  | error e => exact Or.inl ⟨e, rfl⟩
  | ok n => exact Or.inr ⟨n, rfl, grant_le r m n hr⟩

/-- Whatever the host does, the prog loop can only leave with a negative
code, or with 0 once all of `data` is stored at the offset the descriptor had
on entry. -/
theorem prog_loop_sound (env : Nat → HostResp) (fuel : Nat) (f : HostFile)
    (data : List Byte) (code : Int) (f1 : HostFile)
    (h : prog_loop env fuel f data = some (code, f1)) :
    code < 0 ∨
      (code = 0 ∧ f1.pos = f.pos + data.length ∧
        (f1.bytes.drop f.pos).take data.length = data ∧
        (∀ i, i < f.pos → i < f.bytes.length → f1.bytes[i]? = f.bytes[i]?) ∧
        f.bytes.length ≤ f1.bytes.length) := by
  induction fuel generalizing f data with
  | zero =>
    cases data with
    | nil =>
      simp only [prog_loop, Option.some.injEq, Prod.mk.injEq] at h
      obtain ⟨h1, h2⟩ := h
      subst h1 h2
      exact Or.inr ⟨rfl, rfl, rfl, fun _ _ _ => rfl, le_refl _⟩
    | cons x xs => simp [prog_loop] at h
  | succ k ih =>
    cases data with
    | nil =>
      simp only [prog_loop, Option.some.injEq, Prod.mk.injEq] at h
      obtain ⟨h1, h2⟩ := h
      subst h1 h2
      exact Or.inr ⟨rfl, rfl, rfl, fun _ _ _ => rfl, le_refl _⟩
    | cons x xs =>
      rcases grant_cases (env f.clock) (x :: xs).length with ⟨e, he⟩ | ⟨n, hn, hn2⟩
      · simp only [prog_loop, host_write_err env f (x :: xs) e he, Option.some.injEq,
          Prod.mk.injEq] at h
        rw [← h.1]
        exact Or.inl (errno_neg e)
      · simp only [prog_loop, host_write_ok env f (x :: xs) n hn] at h
        rcases ih _ _ h with hneg | ⟨hz, hpos, hwin, hframe, hlen⟩
        · exact Or.inl hneg
        · right
          simp only at hpos hwin hframe hlen
          have htl : ((x :: xs).take n).length = n := by
            rw [List.length_take]
            exact min_eq_left hn2
          have hwl := length_le_write_at f.bytes f.pos ((x :: xs).take n)
          have hwn : 0 < n → f.pos + n ≤ (write_at f.bytes f.pos ((x :: xs).take n)).length := by
            intro hn0
            have htne : (x :: xs).take n ≠ [] := by
              intro h0
              rw [h0] at htl
              simp at htl
              omega
            rw [length_write_at _ _ _ htne, htl]
            exact le_max_right _ _
          rw [List.length_drop] at hpos hwin
          refine ⟨hz, by rw [hpos]; omega, ?_, ?_, ?_⟩
          · apply List.ext_getElem?
            intro j
            by_cases hj : j < (x :: xs).length
            · rw [List.getElem?_take_of_lt hj, List.getElem?_drop]
              by_cases hjn : j < n
              · have := hwn (by omega)
                rw [hframe (f.pos + j) (by omega) (by omega),
                  getElem?_write_at_mid _ _ _ _ (by rw [htl]; exact hjn),
                  List.getElem?_take_of_lt hjn]
              · have h1 : j - n < (x :: xs).length - n := by omega
                have h2 := congrArg (fun l => l[j - n]?) hwin
                simp only at h2
                rw [List.getElem?_take_of_lt h1, List.getElem?_drop, List.getElem?_drop] at h2
                have e1 : f.pos + n + (j - n) = f.pos + j := by omega
                have e2 : n + (j - n) = j := by omega
                rw [e1, e2] at h2
                exact h2
            · rw [List.getElem?_eq_none (by simp only [List.length_take]; omega),
                List.getElem?_eq_none (by omega)]
          · intro i hi hil
            rw [hframe i (by omega) (by omega)]
            exact getElem?_write_at_lt _ _ _ _ hi hil
          · omega

theorem take_length_take (L : List Byte) (m : Nat) :
    L.take (L.take m).length = L.take m := by
  rw [List.length_take]
  rcases Nat.le_total m L.length with h | h
  · rw [min_eq_left h]
  · rw [min_eq_right h, List.take_length, List.take_of_length_le h]

/-- Whatever the host does, the read loop can only leave with a negative
code, or with 0 once it has delivered the `size` bytes that follow the offset
the descriptor had on entry. -/
theorem read_loop_sound (env : Nat → HostResp) (fuel : Nat) (f : HostFile) (size : Nat)
    (acc : List Byte) (code : Int) (f1 : HostFile) (buf : List Byte)
    (h : read_loop env fuel f size acc = some (code, f1, buf)) :
    code < 0 ∨
      (code = 0 ∧ buf = acc ++ (f.bytes.drop f.pos).take size ∧
        buf.length = acc.length + size ∧ f1.pos = f.pos + size ∧ f1.bytes = f.bytes) := by
  induction fuel generalizing f size acc with
  | zero =>
    cases size with
    | zero =>
      simp only [read_loop, Option.some.injEq, Prod.mk.injEq] at h
      obtain ⟨h1, h2, h3⟩ := h
      subst h1 h2 h3
      exact Or.inr ⟨rfl, by simp, rfl, rfl, rfl⟩
    | succ n => simp [read_loop] at h
  | succ k ih =>
    cases size with
    | zero =>
      simp only [read_loop, Option.some.injEq, Prod.mk.injEq] at h
      obtain ⟨h1, h2, h3⟩ := h
      subst h1 h2 h3
      exact Or.inr ⟨rfl, by simp, rfl, rfl, rfl⟩
    | succ m =>
      rcases grant_cases (env f.clock) (m + 1) with ⟨e, he⟩ | ⟨n, hn, hn2⟩
      · simp only [read_loop, host_read_err env f (m + 1) e he, Option.some.injEq,
          Prod.mk.injEq] at h
        rw [← h.1]
        exact Or.inl (errno_neg e)
      · simp only [read_loop, host_read_ok env f (m + 1) n hn] at h
        rcases ih _ _ _ h with hneg | ⟨hz, hbuf, hlen, hpos, hby⟩
        · exact Or.inl hneg
        · right
          simp only at hbuf hlen hpos hby
          have hdl : ((f.bytes.drop f.pos).take n).length ≤ m + 1 := by
            rw [List.length_take]
            omega
          refine ⟨hz, ?_, ?_, by rw [hpos]; omega, hby⟩
          · rw [hbuf, List.append_assoc]
            congr 1
            have e1 : m + 1 = ((f.bytes.drop f.pos).take n).length +
                (m + 1 - ((f.bytes.drop f.pos).take n).length) := by omega
            rw [← List.drop_drop]
            conv_rhs => rw [e1, List.take_add, take_length_take]
          · rw [hlen, List.length_append]
            omega

theorem prog_sound (cfg : lfs_config) (env : Nat → HostResp) (ctx : my_context)
    (block off : Nat) (data : List Byte) (fuel : Nat) (code : Int) (c1 : my_context)
    (h : lfs_fuse_bd_prog cfg env fuel ctx block off data = some (.ret code c1 ())) :
    code < 0 ∨ (code = 0 ∧
      (c1.fd.bytes.drop
          (mul_u32 (c1.list.getD block 0) cfg.block_size + off).toNat).take data.length
        = data ∧
      c1.fd.pos =
        (mul_u32 (c1.list.getD block 0) cfg.block_size + off).toNat + data.length) := by
  have hb := (prog_ret_ctx cfg env fuel ctx block off data code c1 h).1
  have h0 := seekpos_fst_nonneg cfg env ctx block
  have hfst := seekpos_fst cfg env ctx block
  unfold lfs_fuse_bd_prog at h
  rw [if_neg (not_not.mpr hb)] at h
  simp only [if_neg (not_lt.mpr h0)] at h
  rcases fail_or_not (env (lfs_fuse_bd_seekpos cfg env ctx block).2.fd.clock) with
    ⟨e, he⟩ | hok
  · rw [host_lseek_fail env _ _ _ e he] at h
    simp only [Option.some.injEq, Outcome.ret.injEq] at h
    rw [← h.1]
    exact Or.inl (errno_neg e)
  · rw [host_lseek_set_ok env _ _ (by omega) hok] at h
    simp only at h
    split at h
    · exact Option.noConfusion h
    · rename_i code1 f1 hloop
      simp only [Option.some.injEq, Outcome.ret.injEq, and_true] at h
      obtain ⟨hc, hctx⟩ := h
      subst hc hctx
      rcases prog_loop_sound env fuel _ data code1 f1 hloop with hneg | ⟨hz, hpos, hwin, _, _⟩
      · exact Or.inl hneg
      · right
        simp only at hpos hwin ⊢
        rw [← hfst]
        exact ⟨hz, hwin, hpos⟩

theorem read_sound (cfg : lfs_config) (env : Nat → HostResp) (ctx : my_context)
    (block off size fuel : Nat) (code : Int) (c1 : my_context) (buf : List Byte)
    (h : lfs_fuse_bd_read cfg env fuel ctx block off size = some (.ret code c1 buf)) :
    code < 0 ∨ (code = 0 ∧ buf.length = size ∧
      buf = (c1.fd.bytes.drop
          (mul_u32 (c1.list.getD block 0) cfg.block_size + off).toNat).take size ∧
      c1.fd.pos =
        (mul_u32 (c1.list.getD block 0) cfg.block_size + off).toNat + size) := by
  have hb := (read_ret_ctx cfg env fuel ctx block off size code c1 buf h).1
  have h0 := seekpos_fst_nonneg cfg env ctx block
  have hfst := seekpos_fst cfg env ctx block
  unfold lfs_fuse_bd_read at h
  rw [if_neg (not_not.mpr hb)] at h
  simp only [if_neg (not_lt.mpr h0)] at h
  rcases fail_or_not (env (lfs_fuse_bd_seekpos cfg env ctx block).2.fd.clock) with
    ⟨e, he⟩ | hok
  · rw [host_lseek_fail env _ _ _ e he] at h
    simp only [Option.some.injEq, Outcome.ret.injEq] at h
    rw [← h.1]
    exact Or.inl (errno_neg e)
  · rw [host_lseek_set_ok env _ _ (by omega) hok] at h
    simp only at h
    split at h
    · exact Option.noConfusion h
    · rename_i code1 f1 buf1 hloop
      simp only [Option.some.injEq, Outcome.ret.injEq] at h
      obtain ⟨hc, hctx, hbuf⟩ := h
      subst hc hctx hbuf
      rcases read_loop_sound env fuel _ size [] code1 f1 buf1 hloop with
        hneg | ⟨hz, hb1, hlen, hpos, hby⟩
      · exact Or.inl hneg
      · right
        simp only [List.nil_append, List.length_nil, Nat.zero_add] at hb1 hlen hpos hby ⊢
        rw [← hfst, hby]
        exact ⟨hz, hlen, hb1, hpos⟩

theorem prog_no_trap (cfg : lfs_config) (env : Nat → HostResp) (ctx : my_context)
    (block off : Nat) (data : List Byte) (fuel : Nat) (hb : block < cfg.block_count) :
    lfs_fuse_bd_prog cfg env fuel ctx block off data ≠ some .trap := by
  unfold lfs_fuse_bd_prog
  rw [if_neg (not_not.mpr hb)]
  simp only
  split
  · simp
  · split
    · simp
    · split <;> simp

theorem read_no_trap (cfg : lfs_config) (env : Nat → HostResp) (ctx : my_context)
    (block off size fuel : Nat) (hb : block < cfg.block_count) :
    lfs_fuse_bd_read cfg env fuel ctx block off size ≠ some .trap := by
  unfold lfs_fuse_bd_read
  rw [if_neg (not_not.mpr hb)]
  simp only
  split
  · simp
  · split
    · simp
    · split <;> simp

theorem length_write_at_inside (bytes : List Byte) (pos : Nat) (d : List Byte)
    (h : pos + d.length ≤ bytes.length) : (write_at bytes pos d).length = bytes.length := by
  by_cases hd : d = []
  · rw [hd, write_at_nil]
  · rw [length_write_at _ _ _ hd]
    exact max_eq_left h

/-- Whatever the host does, the prog loop changes no byte of the file outside
the range it was asked to write, and does not change the length of a file
that already contains that range. -/
theorem prog_loop_frame (env : Nat → HostResp) (fuel : Nat) (f : HostFile)
    (data : List Byte) (code : Int) (f1 : HostFile)
    (h : prog_loop env fuel f data = some (code, f1)) :
    (∀ i, i < f.bytes.length → (i < f.pos ∨ f.pos + data.length ≤ i) →
      f1.bytes[i]? = f.bytes[i]?) ∧
    (f.pos + data.length ≤ f.bytes.length → f1.bytes.length = f.bytes.length) := by
  induction fuel generalizing f data with
  | zero =>
    cases data with
    | nil =>
      simp only [prog_loop, Option.some.injEq, Prod.mk.injEq] at h
      rw [← h.2]
      exact ⟨fun _ _ _ => rfl, fun _ => rfl⟩
    | cons x xs => simp [prog_loop] at h
  | succ k ih =>
    cases data with
    | nil =>
      simp only [prog_loop, Option.some.injEq, Prod.mk.injEq] at h
      rw [← h.2]
      exact ⟨fun _ _ _ => rfl, fun _ => rfl⟩
    | cons x xs =>
      rcases grant_cases (env f.clock) (x :: xs).length with ⟨e, he⟩ | ⟨n, hn, hn2⟩
      · simp only [prog_loop, host_write_err env f (x :: xs) e he, Option.some.injEq,
          Prod.mk.injEq] at h
        rw [← h.2]
        exact ⟨fun _ _ _ => rfl, fun _ => rfl⟩
      · simp only [prog_loop, host_write_ok env f (x :: xs) n hn] at h
        obtain ⟨ih1, ih2⟩ := ih _ _ h
        simp only [List.length_drop] at ih1 ih2
        have htl : ((x :: xs).take n).length = n := by
          rw [List.length_take]
          exact min_eq_left hn2
        have hwl := length_le_write_at f.bytes f.pos ((x :: xs).take n)
        refine ⟨?_, ?_⟩
        · intro i hi hout
          rw [ih1 i (by omega) (by omega)]
          rcases hout with hlt | hge
          · exact getElem?_write_at_lt _ _ _ _ hlt hi
          · exact getElem?_write_at_ge _ _ _ _ (by rw [htl]; omega)
        · intro hin
          have hw : (write_at f.bytes f.pos ((x :: xs).take n)).length = f.bytes.length :=
            length_write_at_inside _ _ _ (by rw [htl]; omega)
          rw [ih2 (by rw [hw]; omega), hw]

/-- What a completed prog does to the file, whatever the host does and
whatever code it returns: bytes outside the target range keep their value and
a file that contains the target range keeps its length. -/
theorem prog_ret_frame (cfg : lfs_config) (env : Nat → HostResp) (fuel : Nat)
    (c : my_context) (b off : Nat) (data : List Byte) (code : Int) (c1 : my_context)
    (h : lfs_fuse_bd_prog cfg env fuel c b off data = some (.ret code c1 ())) :
    (∀ i, i < (lfs_fuse_bd_seekpos cfg env c b).2.fd.bytes.length →
      (i < ((lfs_fuse_bd_seekpos cfg env c b).1 + off).toNat ∨
        ((lfs_fuse_bd_seekpos cfg env c b).1 + off).toNat + data.length ≤ i) →
      c1.fd.bytes[i]? = (lfs_fuse_bd_seekpos cfg env c b).2.fd.bytes[i]?) ∧
    (((lfs_fuse_bd_seekpos cfg env c b).1 + off).toNat + data.length ≤
        (lfs_fuse_bd_seekpos cfg env c b).2.fd.bytes.length →
      c1.fd.bytes.length = (lfs_fuse_bd_seekpos cfg env c b).2.fd.bytes.length) := by
  have hb := (prog_ret_ctx cfg env fuel c b off data code c1 h).1
  have h0 := seekpos_fst_nonneg cfg env c b
  unfold lfs_fuse_bd_prog at h
  rw [if_neg (not_not.mpr hb)] at h
  simp only [if_neg (not_lt.mpr h0)] at h
  rcases fail_or_not (env (lfs_fuse_bd_seekpos cfg env c b).2.fd.clock) with ⟨e, he⟩ | hok
  · rw [host_lseek_fail env _ _ _ e he] at h
    simp only [Option.some.injEq, Outcome.ret.injEq, and_true] at h
    rw [← h.2]
    exact ⟨fun _ _ _ => rfl, fun _ => rfl⟩
  · rw [host_lseek_set_ok env _ _ (by omega) hok] at h
    simp only at h
    split at h
    · exact Option.noConfusion h
    · rename_i code1 f1 hloop
      simp only [Option.some.injEq, Outcome.ret.injEq, and_true] at h
      rw [← h.2]
      exact prog_loop_frame env fuel _ data code1 f1 hloop

theorem seekpos_exact (cfg : lfs_config) (env : Nat → HostResp) (c : my_context) (b : Nat)
    (hinv : MapInv cfg c) (hb : b < cfg.block_count) (h : FileExact cfg c)
    (hext : c.list.getD b 0 < 0 →
      (∀ e, env c.fd.clock ≠ .fail e) ∧
      (env (c.fd.clock + 1)).grant cfg.block_size = .ok cfg.block_size) :
    FileExact cfg (lfs_fuse_bd_seekpos cfg env c b).2 := by
  unfold FileExact at h ⊢
  by_cases hneg : c.list.getD b 0 < 0
  · rw [seekpos_extend_bytes cfg env c b hneg (hext hneg).1 (hext hneg).2,
      seekpos_fresh_inv cfg env c b hinv hb hneg]
    simp only [List.length_append, List.length_replicate]
    push_cast
    linarith
  · rw [seekpos_allocated cfg env c b (not_lt.mp hneg)]
    exact h

theorem exact_created (c : my_context) (h : FileExact created_cfg c) :
    (c.fd.bytes.length : Int) = c.cfsize * 512 := h

theorem prog_exact (env : Nat → HostResp) (fuel : Nat)
    (c : my_context) (a off : Nat) (data : List Byte) (code : Int) (c1 : my_context)
    (hinv : MapInv created_cfg c) (hex : FileExact created_cfg c)
    (hfit : off + data.length ≤ 512)
    (hext : extends_ok created_cfg env c (.prog a off data))
    (hprog : lfs_fuse_bd_prog created_cfg env fuel c a off data = some (.ret code c1 ())) :
    FileExact created_cfg c1 := by
  obtain ⟨ha, _, hcf⟩ := prog_ret_ctx created_cfg env fuel c a off data code c1 hprog
  have hinv_r := MapInv_seekpos created_cfg env c a hinv ha
  have hex_r := exact_created _ (seekpos_exact created_cfg env c a hinv ha hex hext)
  have hal : a < c.list.length := by rw [hinv.len]; exact ha
  obtain ⟨sa, hsa, hslot_a, hoff_a⟩ :=
    seekpos_result_allocated created_cfg env c a hal hinv.nonneg
  obtain ⟨hsa2, _, hma⟩ := slot_offset _ a sa hinv_r hsa hslot_a
  have hlen := (prog_ret_frame created_cfg env fuel c a off data code c1 hprog).2
  rw [hoff_a, hma] at hlen
  have hl := hlen (by omega)
  unfold FileExact
  rw [hcf, hl]
  exact seekpos_exact created_cfg env c a hinv ha hex hext

theorem exec_exact (env : Nat → HostResp)
    (fuel : Nat) (c : my_context) (op : Op) (code : Int) (c1 : my_context)
    (hinv : MapInv created_cfg c) (h : FileExact created_cfg c)
    (hin : op.in_bounds created_cfg) (hext : extends_ok created_cfg env c op)
    (hx : op.exec created_cfg env fuel c = some (code, c1)) :
    FileExact created_cfg c1 := by
  cases op with
  | read b off size =>
    simp only [Op.exec] at hx
    split at hx
    · rename_i code1 c2 buf hr
      simp only [Option.some.injEq, Prod.mk.injEq] at hx
      obtain ⟨_, h2⟩ := hx
      subst h2
      have h1 := read_ret_ctx created_cfg env fuel c b off size code1 c2 buf hr
      have h3 := read_ret_bytes created_cfg env fuel c b off size code1 c2 buf hr
      have h4 := seekpos_exact created_cfg env c b hinv h1.1 h hext
      unfold FileExact at h4 ⊢
      rw [h1.2.2, h3]
      exact h4
    · simp at hx
  | prog b off data =>
    simp only [Op.exec] at hx
    split at hx
    · rename_i code1 c2 u hr
      simp only [Option.some.injEq, Prod.mk.injEq] at hx
      obtain ⟨_, h2⟩ := hx
      subst h2
      exact prog_exact env fuel c b off data code1 c2 hinv h hin.2 hext hr
    · simp at hx
  | erase b =>
    simp only [Op.exec, lfs_fuse_bd_erase, Option.some.injEq, Prod.mk.injEq] at hx
    obtain ⟨_, h2⟩ := hx
    subst h2
    exact h
  | sync =>
    simp only [Op.exec] at hx
    split at hx
    · rename_i code1 c2 u hr
      simp only [Option.some.injEq, Prod.mk.injEq] at hx
      obtain ⟨_, h2⟩ := hx
      subst h2
      obtain ⟨_, h4, h5⟩ := sync_bytes created_cfg env c code1 c2 hr
      unfold FileExact at h ⊢
      rw [h4, h5]
      exact h
    · simp at hx

theorem run_exact (env : Nat → HostResp)
    (c0 c : my_context) (ops : List Op) (hinv0 : MapInv created_cfg c0)
    (h0 : FileExact created_cfg c0) (hrun : Run created_cfg env c0 ops c)
    (hops : ∀ op ∈ ops, op.in_bounds created_cfg)
    (hext : ∀ (ops1 ops2 : List Op) (op : Op) (mid : my_context),
      ops = ops1 ++ op :: ops2 → Run created_cfg env c0 ops1 mid →
      extends_ok created_cfg env mid op) : FileExact created_cfg c := by
  induction hrun with
  | nil => exact h0
  | @snoc cm c1 ops1 op fuel code hrun1 hstep ih =>
    have hinv := MapInv_run created_cfg env c0 cm ops1 hinv0 hrun1
    have ih1 := ih (fun o ho => hops o (List.mem_append_left _ ho))
      (fun o1 o2 o mid he hr => hext o1 (o2 ++ [op]) o mid (by rw [he]; simp) hr)
    exact exec_exact env fuel cm op code c1 hinv ih1
      (hops op (List.mem_append_right _ (List.mem_singleton_self op)))
      (hext ops1 [] op cm rfl hrun1) hstep

/-- The growth bound for one run from a freshly created device. -/
theorem growth_core (cfg : lfs_config) (env : Nat → HostResp) (present : Bool)
    (clock : Nat) (c0 ctx : my_context) (ops : List Op)
    (hcreate : lfs_fuse_bd_create env present clock = (0, cfg, some c0))
    (hrun : Run cfg env c0 ops ctx)
    (hops : ∀ op ∈ ops, op.in_bounds cfg)
    (hext : ∀ (ops1 ops2 : List Op) (op : Op) (mid : my_context),
      ops = ops1 ++ op :: ops2 → Run cfg env c0 ops1 mid → extends_ok cfg env mid op) :
    ctx.fd.bytes.length = (touched ops).card * cfg.block_size ∧
    (ctx.fd.bytes.length : Int) = ctx.cfsize * cfg.block_size := by
  obtain ⟨hcfg, hl, hc, hb⟩ := create_ok_inv env present clock cfg c0 hcreate
  subst hcfg
  have hinv0 := MapInv_created c0 hl hc
  have hex0 : FileExact created_cfg c0 := by
    unfold FileExact
    rw [hb, hc]
    simp
  have hex := run_exact env c0 ctx ops hinv0 hex0 hrun hops hext
  have hall : ∀ (b : Nat) (s : Int), c0.list[b]? = some s → s < 0 := by
    intro b s hs
    rw [hl, List.getElem?_replicate] at hs
    split at hs
    · have : (-1 : Int) = s := by simpa using hs
      omega
    · simp at hs
  obtain ⟨_, hcard⟩ := touched_run created_cfg env c0 ctx ops hinv0 hall hc hrun
  refine ⟨?_, hex⟩
  have h1 : (ctx.fd.bytes.length : Int) = ((touched ops).card : Int) * created_cfg.block_size := by
    rw [← hcard]
    exact hex
  exact_mod_cast h1

theorem extends_ok_ideal (cfg : lfs_config) (env : Nat → HostResp)
    (hideal : ∀ i, env i = .full) (c : my_context) (op : Op) : extends_ok cfg env c op := by
  unfold extends_ok
  split
  · intro _
    exact ⟨not_fail_of_ideal env hideal _, grant_ideal env hideal _ _⟩
  · trivial

set_option maxRecDepth 100000 in
theorem short_exec :
    (Op.prog 2 0 [1, 2, 3]).exec created_cfg trickle 3 created_ctx = some (0, short_ctx) := by
  decide!

/-- In a reachable state with an unallocated entry, the slot count is in the
range where neither `cfsize += 1` nor `cfsize * block_size` wraps. -/
theorem reachable_in_range (cfg : lfs_config) (env : Nat → HostResp) (c : my_context)
    (b : Nat) (h : Reachable cfg env c) (hb : b < cfg.block_count)
    (hneg : c.list.getD b 0 < 0) :
    0 ≤ c.cfsize ∧ c.cfsize < 2147483647 ∧ c.cfsize * cfg.block_size < 2 ^ 32 := by
  have hcfg := reachable_cfg cfg env c h
  subst hcfg
  have hinv := MapInv_reachable created_cfg env c h
  have hroom := (MapInv_room created_cfg c b hinv hb hneg).1
  have h2048 : ((created_cfg.block_count : Nat) : Int) = 2048 := rfl
  have h512 : ((created_cfg.block_size : Nat) : Int) = 512 := rfl
  have hnn := hinv.nonneg
  rw [h2048] at hroom
  rw [h512]
  refine ⟨hnn, by omega, by omega⟩

theorem seekpos_covers (cfg : lfs_config) (env : Nat → HostResp)
    (hideal : ∀ i, env i = .full) (c : my_context) (b : Nat) (hinv : MapInv cfg c)
    (hb : b < cfg.block_count) (h : FileCovers cfg c) :
    FileCovers cfg (lfs_fuse_bd_seekpos cfg env c b).2 := by
  unfold FileCovers at h ⊢
  by_cases hneg : c.list.getD b 0 < 0
  · rw [seekpos_extend_bytes cfg env c b hneg (not_fail_of_ideal env hideal _)
      (grant_ideal env hideal _ _), seekpos_fresh_inv cfg env c b hinv hb hneg]
    simp only [List.length_append, List.length_replicate]
    push_cast
    linarith
  · rw [seekpos_allocated cfg env c b (not_lt.mp hneg)]
    exact h

theorem exec_covers (cfg : lfs_config) (env : Nat → HostResp) (hideal : ∀ i, env i = .full)
    (fuel : Nat) (c : my_context) (op : Op) (code : Int) (c1 : my_context)
    (hinv : MapInv cfg c) (h : FileCovers cfg c)
    (hx : op.exec cfg env fuel c = some (code, c1)) : FileCovers cfg c1 := by
  cases op with
  | read b off size =>
    simp only [Op.exec] at hx
    split at hx
    · rename_i code1 c2 buf hr
      simp only [Option.some.injEq, Prod.mk.injEq] at hx
      obtain ⟨_, h2⟩ := hx
      subst h2
      have h1 := read_ret_ctx cfg env fuel c b off size code1 c2 buf hr
      have h3 := read_ret_bytes cfg env fuel c b off size code1 c2 buf hr
      have h4 := seekpos_covers cfg env hideal c b hinv h1.1 h
      unfold FileCovers at h4 ⊢
      rw [h1.2.2, h3]
      exact h4
    · simp at hx
  | prog b off data =>
    simp only [Op.exec] at hx
    split at hx
    · rename_i code1 c2 u hr
      simp only [Option.some.injEq, Prod.mk.injEq] at hx
      obtain ⟨_, h2⟩ := hx
      subst h2
      have h1 := prog_ret_ctx cfg env fuel c b off data code1 c2 hr
      have h3 := prog_ret_length cfg env fuel c b off data code1 c2 hr
      have h4 := seekpos_covers cfg env hideal c b hinv h1.1 h
      unfold FileCovers at h4 ⊢
      rw [h1.2.2]
      have h5 : ((lfs_fuse_bd_seekpos cfg env c b).2.fd.bytes.length : Int) ≤
          c2.fd.bytes.length := by exact_mod_cast h3
      linarith
    · simp at hx
  | erase b =>
    simp only [Op.exec, lfs_fuse_bd_erase, Option.some.injEq, Prod.mk.injEq] at hx
    obtain ⟨_, h2⟩ := hx
    subst h2
    exact h
  | sync =>
    simp only [Op.exec] at hx
    split at hx
    · rename_i code1 c2 u hr
      simp only [Option.some.injEq, Prod.mk.injEq] at hx
      obtain ⟨_, h2⟩ := hx
      subst h2
      obtain ⟨_, h4, h5⟩ := sync_bytes cfg env c code1 c2 hr
      unfold FileCovers at h ⊢
      rw [h4, h5]
      exact h
    · simp at hx

theorem run_covers (cfg : lfs_config) (env : Nat → HostResp) (hideal : ∀ i, env i = .full)
    (c0 c : my_context) (ops : List Op) (hinv0 : MapInv cfg c0) (h0 : FileCovers cfg c0)
    (h : Run cfg env c0 ops c) : FileCovers cfg c := by
  induction h with
  | nil => exact h0
  | @snoc cm c1 ops1 op fuel code hrun1 hstep ih =>
    exact exec_covers cfg env hideal fuel _ op code _
      (MapInv_run cfg env c0 cm ops1 hinv0 hrun1) ih hstep

theorem reachable_covers (cfg : lfs_config) (env : Nat → HostResp)
    (hideal : ∀ i, env i = .full) (c : my_context) (h : Reachable cfg env c) :
    FileCovers cfg c := by
  obtain ⟨present, clock, c0, ops, hc, hrun⟩ := h
  obtain ⟨hcfg, h2, h3, h4⟩ := create_ok_inv env present clock cfg c0 hc
  subst hcfg
  refine run_covers created_cfg env hideal c0 c ops (MapInv_created c0 h2 h3) ?_ hrun
  unfold FileCovers
  rw [h3, h4]
  simp

theorem covers_created (c : my_context) (h : FileCovers created_cfg c) :
    c.cfsize * 512 ≤ (c.fd.bytes.length : Int) := h

/-- Resolving a block changes no byte the file already had, provided the
`lseek` to the end that precedes an extension does not fail. -/
theorem seekpos_frame (cfg : lfs_config) (env : Nat → HostResp) (c : my_context) (a : Nat)
    (hseek : c.list.getD a 0 < 0 → ∀ e, env c.fd.clock ≠ .fail e) (i : Nat)
    (hi : i < c.fd.bytes.length) :
    (lfs_fuse_bd_seekpos cfg env c a).2.fd.bytes[i]? = c.fd.bytes[i]? := by
  by_cases hneg : c.list.getD a 0 < 0
  · rw [seekpos_fresh cfg env c a hneg]
    simp only
    rw [host_lseek_end_ok env c.fd (hseek hneg)]
    unfold host_write
    split
    · rfl
    · exact getElem?_write_at_lt _ _ _ _ hi hi
  · rw [seekpos_allocated cfg env c a (not_lt.mp hneg)]

theorem window_ext (l1 l2 : List Byte) (q n : Nat)
    (h : ∀ j, j < n → l1[q + j]? = l2[q + j]?) :
    (l1.drop q).take n = (l2.drop q).take n := by
  apply List.ext_getElem?
  intro j
  by_cases hj : j < n
  · rw [List.getElem?_take_of_lt hj, List.getElem?_take_of_lt hj, List.getElem?_drop,
      List.getElem?_drop]
    exact h j hj
  · rw [List.getElem?_eq_none (by simp only [List.length_take]; omega),
      List.getElem?_eq_none (by simp only [List.length_take]; omega)]

/-- The bytes stored for an allocated block `b` are not touched by a prog to
another block, whatever the host does, as long as an extension starts from
the end of the file. -/
theorem stored_window_kept (env : Nat → HostResp)
    (ctx : my_context) (a b off : Nat) (data : List Byte) (off1 size1 fuel : Nat)
    (code : Int) (ctx1 : my_context) (sb : Int)
    (hinv : MapInv created_cfg ctx)
    (hab : a ≠ b) (ha : a < created_cfg.block_count)
    (hsb : 0 ≤ sb) (hslot : ctx.list[b]? = some sb)
    (hfit : off + data.length ≤ 512) (hfit1 : off1 + size1 ≤ 512)
    (hseek : ctx.list.getD a 0 < 0 → ∀ e, env ctx.fd.clock ≠ .fail e)
    (hprog : lfs_fuse_bd_prog created_cfg env fuel ctx a off data = some (.ret code ctx1 ()))
    (hin : (sb * 512 + off1).toNat + size1 ≤ ctx.fd.bytes.length) :
    ctx1.list[b]? = some sb ∧
    (ctx1.fd.bytes.drop (sb * 512 + off1).toNat).take size1 =
      (ctx.fd.bytes.drop (sb * 512 + off1).toNat).take size1 := by
  have hinv_r := MapInv_seekpos created_cfg env ctx a hinv ha
  have hal : a < ctx.list.length := by rw [hinv.len]; exact ha
  obtain ⟨sa, hsa, hslot_a, hoff_a⟩ :=
    seekpos_result_allocated created_cfg env ctx a hal hinv.nonneg
  have hslot_b := seekpos_keeps_allocated created_cfg env ctx a b sb hsb hslot
  have hne : sa ≠ sb := by
    intro he
    subst he
    exact hab (hinv_r.inj a b sa hsa hslot_a hslot_b)
  obtain ⟨_, _, hma⟩ := slot_offset _ a sa hinv_r hsa hslot_a
  have hlist := (prog_ret_ctx created_cfg env fuel ctx a off data code ctx1 hprog).2.1
  have hframe := (prog_ret_frame created_cfg env fuel ctx a off data code ctx1 hprog).1
  rw [hoff_a, hma] at hframe
  have hlen := seekpos_bytes_length created_cfg env ctx a
  refine ⟨by rw [hlist]; exact hslot_b, ?_⟩
  apply window_ext
  intro j hj
  have hdis : (sb * 512 + off1).toNat + j < (sa * 512 + off).toNat ∨
      (sa * 512 + off).toNat + data.length ≤ (sb * 512 + off1).toNat + j := by
    rcases lt_or_gt_of_ne hne with hlt | hgt
    · right
      omega
    · left
      omega
  rw [hframe _ (by omega) hdis]
  exact seekpos_frame created_cfg env ctx a hseek _ (by omega)

/-- A read of an allocated block that returns 0 returns the bytes stored in
the file at the block's slot, whatever the host. -/
theorem read_zero_window (env : Nat → HostResp) (ctx : my_context) (b off1 size1 fuel : Nat)
    (sb : Int) (c2 : my_context) (buf : List Byte) (hinv : MapInv created_cfg ctx)
    (hsb : 0 ≤ sb) (hslot : ctx.list[b]? = some sb)
    (h : lfs_fuse_bd_read created_cfg env fuel ctx b off1 size1 = some (.ret 0 c2 buf)) :
    buf.length = size1 ∧
    buf = (ctx.fd.bytes.drop (sb * 512 + off1).toNat).take size1 := by
  have hl := (read_ret_ctx created_cfg env fuel ctx b off1 size1 0 c2 buf h).2.1
  have hby := read_ret_bytes created_cfg env fuel ctx b off1 size1 0 c2 buf h
  have hsk := seekpos_of_slot created_cfg env ctx b sb hsb hslot
  rw [hsk] at hl hby
  simp only at hl hby
  obtain ⟨_, _, hmb⟩ := slot_offset ctx b sb hinv hsb hslot
  rcases read_sound created_cfg env ctx b off1 size1 fuel 0 c2 buf h with hneg | ⟨_, h1, h2, _⟩
  · omega
  · rw [hl, hby, getD_of_getElem? _ _ _ hslot, hmb] at h2
    exact ⟨h1, h2⟩

set_option maxRecDepth 100000 in
theorem iso_exec_prog :
    (Op.prog 2 0 demo_data).exec created_cfg seek_end_fails 1 created_ctx =
      some (0, demo_ctx1) := by
  decide!

set_option maxRecDepth 100000 in
theorem iso_exec_read :
    (Op.read 2 0 4).exec created_cfg seek_end_fails 1 demo_ctx1 = some (0, iso_ctx0) := by
  decide!

theorem iso_reachable : Reachable created_cfg seek_end_fails iso_ctx0 :=
  ⟨false, 0, created_ctx, [Op.prog 2 0 demo_data, Op.read 2 0 4], rfl,
    Run.snoc (Op.read 2 0 4) 1 0
      (Run.snoc (Op.prog 2 0 demo_data) 1 0 (Run.nil _) iso_exec_prog) iso_exec_read⟩

theorem run_nil_inv (cfg : lfs_config) (env : Nat → HostResp) (c0 c : my_context)
    (ops : List Op) (h : Run cfg env c0 ops c) (hn : ops = []) : c = c0 := by
  cases h with
  | nil => rfl
  | snoc op fuel code hrun hstep => simp at hn

set_option maxRecDepth 100000 in
theorem refused_exec :
    (Op.prog 2 0 demo_data).exec created_cfg set_fails 1 created_ctx =
      some (-5, refused_ctx) := by
  decide!

theorem refused_run :
    Run created_cfg set_fails created_ctx [Op.prog 2 0 demo_data] refused_ctx :=
  Run.snoc (Op.prog 2 0 demo_data) 1 (-5) (Run.nil _) refused_exec

theorem refused_extends :
    ∀ (ops1 ops2 : List Op) (op : Op) (mid : my_context),
      [Op.prog 2 0 demo_data] = ops1 ++ op :: ops2 →
      Run created_cfg set_fails created_ctx ops1 mid →
      extends_ok created_cfg set_fails mid op := by
  intro ops1 ops2 op mid he hr
  cases ops1 with
  | nil =>
    have hmid := run_nil_inv created_cfg set_fails created_ctx mid [] hr rfl
    subst hmid
    simp only [List.nil_append, List.cons.injEq] at he
    rw [← he.1]
    intro _
    refine ⟨?_, ?_⟩
    · intro e h
      change set_fails 3 = HostResp.fail e at h
      simp [set_fails] at h
    · change (set_fails 4).grant 512 = .ok 512
      simp [set_fails, HostResp.grant]
  | cons y ys =>
    simp at he

set_option maxRecDepth 100000 in
theorem iso_exec_read_ideal :
    (Op.read 2 0 4).exec created_cfg ideal 1 demo_ctx1 = some (0, iso_ctx0) := by
  decide!

theorem iso_reachable_ideal : Reachable created_cfg ideal iso_ctx0 :=
  ⟨false, 0, created_ctx, [Op.prog 2 0 demo_data, Op.read 2 0 4], created_ok,
    Run.snoc (Op.read 2 0 4) 1 0 demo_run iso_exec_read_ideal⟩

/-! ## The claims -/

/-- C1. On a device reachable from create, with a host whose calls all
succeed in full: if `prog(b, off, data)` returns 0, then the read of the same
block, offset and length that follows returns 0 (given fuel for at least one
loop iteration) and stores exactly `data` into the buffer. -/
theorem prog_read_roundtrip (cfg : lfs_config) (env : Nat → HostResp) (ctx : my_context)
    (b off : Nat) (data : List Byte) (fuel : Nat) (ctx1 : my_context)
    (hideal : ∀ i, env i = .full) (hreach : Reachable cfg env ctx)
    (hb : b < cfg.block_count) (_hfit : off + data.length ≤ cfg.block_size)
    (hprog : lfs_fuse_bd_prog cfg env fuel ctx b off data = some (.ret 0 ctx1 ())) :
    ∀ fuel1 : Nat, 0 < fuel1 →
      ∃ ctx2, lfs_fuse_bd_read cfg env fuel1 ctx1 b off data.length =
        some (.ret 0 ctx2 data) := by
  intro fuel1 hfuel1
  have hinv := MapInv_reachable cfg env ctx hreach
  have hbl : b < ctx.list.length := by rw [hinv.len]; exact hb
  obtain ⟨s, hs, hslot, hoff⟩ := seekpos_result_allocated cfg env ctx b hbl hinv.nonneg
  obtain ⟨clk, hp⟩ := prog_ideal cfg env hideal fuel ctx b off data hb
    (prog_some_fuel cfg env fuel ctx b off data _ hb hideal hprog)
  rw [hp] at hprog
  simp only [Option.some.injEq, Outcome.ret.injEq, true_and, and_true] at hprog
  have hslot1 : ctx1.list[b]? = some s := by
    rw [← hprog]
    exact hslot
  have hbytes : ctx1.fd.bytes = write_at (lfs_fuse_bd_seekpos cfg env ctx b).2.fd.bytes
      ((lfs_fuse_bd_seekpos cfg env ctx b).1 + off).toNat data := by
    rw [← hprog]
  have hsk := seekpos_of_slot cfg env ctx1 b s hs hslot1
  have hfuel : data.length = 0 ∨ (0 < fuel1 ∧
      ((lfs_fuse_bd_seekpos cfg env ctx1 b).1 + off).toNat + data.length ≤
        (lfs_fuse_bd_seekpos cfg env ctx1 b).2.fd.bytes.length) := by
    by_cases hd : data = []
    · left
      rw [hd]
      rfl
    · right
      refine ⟨hfuel1, ?_⟩
      rw [hsk]
      simp only
      rw [hbytes, length_write_at _ _ _ hd, hoff]
      exact le_max_right _ _
  obtain ⟨clk2, hr⟩ := read_ideal cfg env hideal fuel1 ctx1 b off data.length hb hfuel
  rw [hoff] at hbytes
  rw [hsk] at hr
  simp only at hr
  rw [hbytes, write_at_read_back] at hr
  exact ⟨_, hr⟩

theorem prog_read_roundtrip_witness :
    lfs_fuse_bd_prog created_cfg ideal 1 created_ctx 2 0 demo_data =
      some (.ret 0 demo_ctx1 ()) ∧
    ∃ ctx2, lfs_fuse_bd_read created_cfg ideal 1 demo_ctx1 2 0 demo_data.length =
      some (.ret 0 ctx2 demo_data) :=
  ⟨demo_prog,
   prog_read_roundtrip created_cfg ideal created_ctx 2 0 demo_data 1 demo_ctx1
    ideal_full created_reachable (by decide)
    (by rw [demo_data_length]; decide) demo_prog 1 (by decide)⟩

/-- C2 as amended. In every state reachable from create, and in any state
whose slot count satisfies `0 ≤ cfsize < INT_MAX` and
`cfsize * block_size < 2^32`, for an unallocated entry `b < block_count`,
when the host's `lseek` to the end does not fail and its `write` stores the
whole zero block: `lfs_fuse_bd_seekpos` sets `list[b]` to the old `cfsize`
(leaving every other entry alone), adds exactly one to `cfsize`, appends
exactly `block_size` zero bytes to the file, whose earlier bytes stay as they
were, and returns `cfsize * block_size`. -/
theorem seekpos_first_touch (cfg : lfs_config) (env : Nat → HostResp) (ctx : my_context)
    (b : Nat) (hlen : ctx.list.length = cfg.block_count) (hb : b < cfg.block_count)
    (hun : ctx.list.getD b 0 < 0)
    (hrange : (0 ≤ ctx.cfsize ∧ ctx.cfsize < 2147483647 ∧
        ctx.cfsize * cfg.block_size < 2 ^ 32) ∨ Reachable cfg env ctx)
    (hseek : ∀ e, env ctx.fd.clock ≠ .fail e)
    (hwrite : (env (ctx.fd.clock + 1)).grant cfg.block_size = .ok cfg.block_size) :
    (lfs_fuse_bd_seekpos cfg env ctx b).2.list = ctx.list.set b ctx.cfsize ∧
    (lfs_fuse_bd_seekpos cfg env ctx b).2.list[b]? = some ctx.cfsize ∧
    (lfs_fuse_bd_seekpos cfg env ctx b).2.cfsize = ctx.cfsize + 1 ∧
    (lfs_fuse_bd_seekpos cfg env ctx b).2.fd.bytes =
      ctx.fd.bytes ++ List.replicate cfg.block_size 0 ∧
    (lfs_fuse_bd_seekpos cfg env ctx b).1 = ctx.cfsize * cfg.block_size := by
  have hbl : b < ctx.list.length := by rw [hlen]; exact hb
  have hr : 0 ≤ ctx.cfsize ∧ ctx.cfsize < 2147483647 ∧
      ctx.cfsize * cfg.block_size < 2 ^ 32 := by
    rcases hrange with h | h
    · exact h
    · exact reachable_in_range cfg env ctx b h hb hun
  obtain ⟨hcf, hmax, hfit⟩ := hr
  have hbytes := seekpos_extend_bytes cfg env ctx b hun hseek hwrite
  rw [seekpos_fresh cfg env ctx b hun] at hbytes ⊢
  refine ⟨rfl, List.getElem?_set_self hbl, ?_, hbytes, ?_⟩
  · exact wrap_i32_small _ (by omega) (by omega)
  · simp only
    rw [getD_of_getElem? _ _ _ (List.getElem?_set_self hbl)]
    exact mul_u32_small _ _ hcf hfit

theorem seekpos_first_touch_witness :
    created_ctx.list.length = created_cfg.block_count ∧
    (2 : Nat) < created_cfg.block_count ∧
    created_ctx.list.getD 2 0 < 0 ∧
    Reachable created_cfg ideal created_ctx ∧
    (lfs_fuse_bd_seekpos created_cfg ideal created_ctx 2).2.list =
      created_ctx.list.set 2 created_ctx.cfsize ∧
    (lfs_fuse_bd_seekpos created_cfg ideal created_ctx 2).2.list[2]? =
      some created_ctx.cfsize ∧
    (lfs_fuse_bd_seekpos created_cfg ideal created_ctx 2).2.cfsize = created_ctx.cfsize + 1 ∧
    (lfs_fuse_bd_seekpos created_cfg ideal created_ctx 2).2.fd.bytes =
      created_ctx.fd.bytes ++ List.replicate created_cfg.block_size 0 ∧
    (lfs_fuse_bd_seekpos created_cfg ideal created_ctx 2).1 =
      created_ctx.cfsize * created_cfg.block_size :=
  ⟨created_len, by decide, by decide, created_reachable,
   seekpos_first_touch created_cfg ideal created_ctx 2 created_len (by decide) (by decide)
    (Or.inr created_reachable)
    (not_fail_of_ideal ideal ideal_full _) (grant_ideal ideal ideal_full _ _)⟩

set_option maxRecDepth 100000 in
/-- C2 as written fails. On the freshly created device, block 2 being
unallocated: with a host that moves one byte per write, and with a host whose
extending `write` fails, `lfs_fuse_bd_seekpos` still sets `list[2] = 0` and
`cfsize = 1` but leaves a file of one byte, or of none, instead of 512 zero
bytes. And in a state whose `cfsize` is `INT_MAX`, with a host that serves
every call in full, `cfsize` becomes `INT_MIN`, not `cfsize + 1`, and the
returned offset is the product reduced modulo `2^32`, not `cfsize * 512`; so
it is in a state whose `cfsize` is `2^23`, where the product is `2^32` and the
call returns 0, and in one whose `cfsize` is `-1`, where it returns
`2^32 - 512`. -/
theorem first_touch_needs_host_and_range :
    lfs_fuse_bd_create trickle false 0 = (0, created_cfg, some created_ctx) ∧
    (2 : Nat) < created_cfg.block_count ∧
    created_ctx.list.getD 2 0 < 0 ∧
    (lfs_fuse_bd_seekpos created_cfg trickle created_ctx 2).2.list[2]? = some 0 ∧
    (lfs_fuse_bd_seekpos created_cfg trickle created_ctx 2).2.cfsize = 1 ∧
    (lfs_fuse_bd_seekpos created_cfg trickle created_ctx 2).2.fd.bytes = [0] ∧
    (lfs_fuse_bd_seekpos created_cfg trickle created_ctx 2).2.fd.bytes ≠
      created_ctx.fd.bytes ++ List.replicate created_cfg.block_size 0 ∧
    lfs_fuse_bd_create extend_fails false 0 = (0, created_cfg, some created_ctx) ∧
    (lfs_fuse_bd_seekpos created_cfg extend_fails created_ctx 2).2.list[2]? = some 0 ∧
    (lfs_fuse_bd_seekpos created_cfg extend_fails created_ctx 2).2.cfsize = 1 ∧
    (lfs_fuse_bd_seekpos created_cfg extend_fails created_ctx 2).2.fd.bytes = [] ∧
    full_count_ctx.list.length = one_block_cfg.block_count ∧
    full_count_ctx.list.getD 0 0 < 0 ∧
    (lfs_fuse_bd_seekpos one_block_cfg ideal full_count_ctx 0).2.cfsize = -2147483648 ∧
    (lfs_fuse_bd_seekpos one_block_cfg ideal full_count_ctx 0).2.cfsize ≠
      full_count_ctx.cfsize + 1 ∧
    (lfs_fuse_bd_seekpos one_block_cfg ideal full_count_ctx 0).1 = 4294966784 ∧
    (lfs_fuse_bd_seekpos one_block_cfg ideal full_count_ctx 0).1 ≠
      full_count_ctx.cfsize * one_block_cfg.block_size ∧
    wide_count_ctx.list.getD 0 0 < 0 ∧
    (lfs_fuse_bd_seekpos one_block_cfg ideal wide_count_ctx 0).1 = 0 ∧
    (lfs_fuse_bd_seekpos one_block_cfg ideal wide_count_ctx 0).1 ≠
      wide_count_ctx.cfsize * one_block_cfg.block_size ∧
    neg_count_ctx.list.getD 0 0 < 0 ∧
    (lfs_fuse_bd_seekpos one_block_cfg ideal neg_count_ctx 0).1 = 4294966784 ∧
    (lfs_fuse_bd_seekpos one_block_cfg ideal neg_count_ctx 0).1 ≠
      neg_count_ctx.cfsize * one_block_cfg.block_size := by
  refine ⟨by decide!, by decide!, by decide!, by decide!, by decide!, by decide!, by decide!,
    by decide!, by decide!, by decide!, by decide!, by decide!, by decide!, by decide!,
    by decide!, by decide!, by decide!, by decide!, by decide!, by decide!, by decide!,
    by decide!, by decide!⟩

/-- C3. In every state reachable from `lfs_fuse_bd_create` by any sequence of
completed read, prog, erase and sync calls (whatever the host did), the block
map has one entry per logical block, the slot numbers held by allocated
entries are exactly `0, ..., cfsize - 1`, no two distinct logical blocks hold
the same slot, and an allocated entry keeps its slot number through every
later sequence of calls. -/
theorem block_map_invariant (cfg : lfs_config) (env : Nat → HostResp) (ctx : my_context)
    (h : Reachable cfg env ctx) :
    ctx.list.length = cfg.block_count ∧
    (∀ s : Int, (∃ b : Nat, b < cfg.block_count ∧ ctx.list[b]? = some s ∧ 0 ≤ s) ↔
      (0 ≤ s ∧ s < ctx.cfsize)) ∧
    (∀ (a b : Nat) (s : Int), a ≠ b → 0 ≤ s → ctx.list[a]? = some s →
      ctx.list[b]? ≠ some s) ∧
    (∀ (ops : List Op) (ctx1 : my_context), Run cfg env ctx ops ctx1 →
      ∀ (b : Nat) (s : Int), 0 ≤ s → ctx.list[b]? = some s → ctx1.list[b]? = some s) := by
  have hinv := MapInv_reachable cfg env ctx h
  refine ⟨hinv.len, ?_, ?_, ?_⟩
  · intro s
    constructor
    · rintro ⟨b, _, hb, hs⟩
      rcases hinv.range b s hb with h1 | h1
      · omega
      · exact h1
    · rintro ⟨h0, h1⟩
      obtain ⟨i, hi⟩ := hinv.onto s h0 h1
      refine ⟨i, ?_, hi, h0⟩
      rw [← hinv.len]
      exact (List.getElem?_eq_some.mp hi).1
  · intro a b s hab hs ha hb
    exact hab (hinv.inj a b s hs ha hb)
  · intro ops ctx1 hrun b s hs hb
    exact run_keeps_allocated cfg env ctx ctx1 ops hrun b s hs hb

theorem block_map_invariant_witness :
    Reachable created_cfg ideal demo_ctx1 ∧
    demo_ctx1.list.length = created_cfg.block_count ∧
    (∀ s : Int, (∃ b : Nat, b < created_cfg.block_count ∧ demo_ctx1.list[b]? = some s ∧ 0 ≤ s) ↔
      (0 ≤ s ∧ s < demo_ctx1.cfsize)) ∧
    (∀ (a b : Nat) (s : Int), a ≠ b → 0 ≤ s → demo_ctx1.list[a]? = some s →
      demo_ctx1.list[b]? ≠ some s) ∧
    (∀ (ops : List Op) (ctx1 : my_context), Run created_cfg ideal demo_ctx1 ops ctx1 →
      ∀ (b : Nat) (s : Int), 0 ≤ s → demo_ctx1.list[b]? = some s →
        ctx1.list[b]? = some s) :=
  ⟨demo_reachable, block_map_invariant created_cfg ideal demo_ctx1 demo_reachable⟩

/-- C4 as amended. From a freshly created device (empty file, `cfsize = 0`),
after any sequence of completed calls that stay inside their block, whatever
the host does to them otherwise, provided each extension of the file that a
first touch asks for is carried out in full (the `lseek` to the end does not
fail and the `write` stores the whole zero block): the backing file is
exactly `k * block_size` bytes long, `k` being the number of distinct logical
blocks passed to read or prog, and after every initial part of the sequence
the file is `cfsize * block_size` bytes long. -/
theorem growth_bound (cfg : lfs_config) (env : Nat → HostResp) (present : Bool)
    (clock : Nat) (c0 ctx : my_context) (ops : List Op)
    (hcreate : lfs_fuse_bd_create env present clock = (0, cfg, some c0))
    (hrun : Run cfg env c0 ops ctx)
    (hops : ∀ op ∈ ops, op.in_bounds cfg)
    (hext : ∀ (ops1 ops2 : List Op) (op : Op) (mid : my_context),
      ops = ops1 ++ op :: ops2 → Run cfg env c0 ops1 mid → extends_ok cfg env mid op) :
    (c0.fd.bytes = [] ∧ c0.cfsize = 0) ∧
    ctx.fd.bytes.length = (touched ops).card * cfg.block_size ∧
    (∀ (ops1 ops2 : List Op) (mid : my_context), ops = ops1 ++ ops2 →
      Run cfg env c0 ops1 mid →
      (mid.fd.bytes.length : Int) = mid.cfsize * cfg.block_size) := by
  obtain ⟨_, _, hc, hb⟩ := create_ok_inv env present clock cfg c0 hcreate
  refine ⟨⟨hb, hc⟩,
    (growth_core cfg env present clock c0 ctx ops hcreate hrun hops hext).1, ?_⟩
  intro ops1 ops2 mid hsplit hrun1
  refine (growth_core cfg env present clock c0 mid ops1 hcreate hrun1 ?_ ?_).2
  · intro op hop
    exact hops op (by rw [hsplit]; exact List.mem_append_left _ hop)
  · intro o1 o2 o m he hr
    exact hext o1 (o2 ++ ops2) o m (by rw [hsplit, he]; simp) hr

theorem growth_bound_witness :
    lfs_fuse_bd_create set_fails false 0 = (0, created_cfg, some created_ctx) ∧
    (Op.prog 2 0 demo_data).exec created_cfg set_fails 1 created_ctx =
      some (-5, refused_ctx) ∧
    (∀ (ops1 ops2 : List Op) (op : Op) (mid : my_context),
      [Op.prog 2 0 demo_data] = ops1 ++ op :: ops2 →
      Run created_cfg set_fails created_ctx ops1 mid →
      extends_ok created_cfg set_fails mid op) ∧
    (created_ctx.fd.bytes = [] ∧ created_ctx.cfsize = 0) ∧
    refused_ctx.fd.bytes.length =
      (touched [Op.prog 2 0 demo_data]).card * created_cfg.block_size ∧
    (∀ (ops1 ops2 : List Op) (mid : my_context),
      [Op.prog 2 0 demo_data] = ops1 ++ ops2 →
      Run created_cfg set_fails created_ctx ops1 mid →
      (mid.fd.bytes.length : Int) = mid.cfsize * created_cfg.block_size) :=
  ⟨rfl, refused_exec, refused_extends,
   growth_bound created_cfg set_fails false 0 created_ctx refused_ctx [Op.prog 2 0 demo_data]
    rfl refused_run demo_in_bounds refused_extends⟩

/-- C4 as written fails. With a host that moves one byte per write, on the
freshly created device `prog(2, 0, [1, 2, 3])` stays inside its block and
returns 0; one block has been touched and `cfsize` is 1, but the backing file
is 3 bytes long, not 512. -/
theorem short_extension_breaks_growth :
    lfs_fuse_bd_create trickle false 0 = (0, created_cfg, some created_ctx) ∧
    (Op.prog 2 0 [1, 2, 3]).exec created_cfg trickle 3 created_ctx = some (0, short_ctx) ∧
    Run created_cfg trickle created_ctx [Op.prog 2 0 [1, 2, 3]] short_ctx ∧
    (Op.prog 2 0 [1, 2, 3]).in_bounds created_cfg ∧
    (touched [Op.prog 2 0 [1, 2, 3]]).card = 1 ∧
    short_ctx.cfsize = 1 ∧
    short_ctx.fd.bytes.length = 3 ∧
    ¬ (short_ctx.fd.bytes.length =
        (touched [Op.prog 2 0 [1, 2, 3]]).card * created_cfg.block_size) ∧
    ¬ ((short_ctx.fd.bytes.length : Int) = short_ctx.cfsize * created_cfg.block_size) :=
  ⟨rfl, short_exec, Run.snoc (Op.prog 2 0 [1, 2, 3]) 3 0 (Run.nil _) short_exec,
   ⟨by decide, by decide⟩, by decide, rfl, rfl, by decide, by decide⟩

set_option maxRecDepth 100000 in
/-- C5, the code at the failing input. On the fresh device, with a host whose
`write` that extends the file fails with `ENOSPC`: `lfs_fuse_bd_seekpos`
returns the non-negative offset 0, records slot 0 for block 0 and raises
`cfsize` to 1 although the file is still empty; the enclosing prog of one
byte returns 0; and resolving block 0 again finds it allocated, so the
extension is not attempted a second time. -/
theorem alloc_failure_not_rolled_back :
    lfs_fuse_bd_create extend_fails false 0 = (0, created_cfg, some created_ctx) ∧
    created_ctx.list[0]? = some (-1) ∧
    host_write extend_fails (host_lseek extend_fails created_ctx.fd 0 .SEEK_END).2
        (List.replicate created_cfg.block_size 0) =
      (.error ENOSPC, { bytes := [], pos := 0, clock := 5 }) ∧
    lfs_fuse_bd_seekpos created_cfg extend_fails created_ctx 0 =
      (0, { fd := { bytes := [], pos := 0, clock := 5 },
            list := (List.replicate 2048 (-1)).set 0 0, cfsize := 1 }) ∧
    lfs_fuse_bd_prog created_cfg extend_fails 1 created_ctx 0 0 [0xAB] =
      some (.ret 0 bug_ctx ()) ∧
    bug_ctx.list[0]? = some 0 ∧ bug_ctx.cfsize = 1 ∧ bug_ctx.fd.bytes.length = 1 ∧
    lfs_fuse_bd_seekpos created_cfg extend_fails bug_ctx 0 = (0, bug_ctx) := by
  refine ⟨by decide!, by decide!, rfl, by decide!, by decide!, by decide!, by decide!,
    by decide!, by decide!⟩

/-- C6, the code as it is: a block index at or past `block_count` makes
`lfs_fuse_bd_read` and `lfs_fuse_bd_prog` abort on their assertion, whatever
the state, the host and the fuel, so no code is returned and no state is
produced; `lfs_fuse_bd_erase` has no assertion and returns 0 with the state
untouched. -/
theorem out_of_range_block (cfg : lfs_config) (env : Nat → HostResp) (fuel : Nat)
    (ctx : my_context) (block off size : Nat) (data : List Byte)
    (h : cfg.block_count ≤ block) :
    lfs_fuse_bd_read cfg env fuel ctx block off size = some .trap ∧
    lfs_fuse_bd_prog cfg env fuel ctx block off data = some .trap ∧
    lfs_fuse_bd_erase cfg ctx block = .ret 0 ctx () := by
  refine ⟨?_, ?_, rfl⟩
  · unfold lfs_fuse_bd_read
    rw [if_pos (not_lt.mpr h)]
  · unfold lfs_fuse_bd_prog
    rw [if_pos (not_lt.mpr h)]

theorem out_of_range_block_witness :
    created_cfg.block_count ≤ 2048 ∧
    lfs_fuse_bd_read created_cfg ideal 1 created_ctx 2048 0 512 = some .trap ∧
    lfs_fuse_bd_prog created_cfg ideal 1 created_ctx 2048 0 demo_data = some .trap ∧
    lfs_fuse_bd_erase created_cfg created_ctx 2048 = .ret 0 created_ctx () :=
  ⟨by decide, out_of_range_block created_cfg ideal 1 created_ctx 2048 0 512 demo_data (by decide)⟩

/-- C6 as written fails for erase: with `block = block_count` the call returns
the success code 0 instead of trapping. -/
theorem erase_accepts_block_count :
    lfs_fuse_bd_erase created_cfg created_ctx created_cfg.block_count ≠ Outcome.trap ∧
    lfs_fuse_bd_erase created_cfg created_ctx created_cfg.block_count =
      Outcome.ret 0 created_ctx () :=
  ⟨by simp [lfs_fuse_bd_erase], rfl⟩

/-- C7. `lfs_fuse_bd_erase` returns 0 and hands back the state it was given
(block map, `cfsize`, file bytes, descriptor offset); so a read issued after
prog-then-erase is the very read that would have been issued without the
erase. -/
theorem erase_noop (cfg : lfs_config) (env : Nat → HostResp) (ctx : my_context) (b : Nat) :
    lfs_fuse_bd_erase cfg ctx b = .ret 0 ctx () ∧
    ∀ (fuel fuel1 off : Nat) (data : List Byte) (code : Int) (ctx1 : my_context)
      (code2 : Int) (ctx2 : my_context) (off1 size1 : Nat),
      lfs_fuse_bd_prog cfg env fuel ctx b off data = some (.ret code ctx1 ()) →
      lfs_fuse_bd_erase cfg ctx1 b = .ret code2 ctx2 () →
      code2 = 0 ∧
      lfs_fuse_bd_read cfg env fuel1 ctx2 b off1 size1 =
        lfs_fuse_bd_read cfg env fuel1 ctx1 b off1 size1 := by
  refine ⟨rfl, ?_⟩
  intro fuel fuel1 off data code ctx1 code2 ctx2 off1 size1 _ he
  simp only [lfs_fuse_bd_erase, Outcome.ret.injEq] at he
  obtain ⟨h1, h2, _⟩ := he
  subst h2
  exact ⟨h1.symm, rfl⟩

/-- C8. Resolving block `b` a second time returns the same byte offset and
changes nothing, not even the count of host calls; the same holds for any
call on an entry that is already allocated; and after resolving any further
blocks in between, `b` still resolves to the same offset, its slot has not
moved, and the file has not become shorter. -/
theorem seekpos_idempotent (cfg : lfs_config) (env : Nat → HostResp) (ctx : my_context)
    (b : Nat) (hlen : ctx.list.length = cfg.block_count) (hcf : 0 ≤ ctx.cfsize)
    (hb : b < cfg.block_count) :
    lfs_fuse_bd_seekpos cfg env (lfs_fuse_bd_seekpos cfg env ctx b).2 b =
        lfs_fuse_bd_seekpos cfg env ctx b ∧
    (∀ (c : my_context) (s : Int), 0 ≤ s → c.list[b]? = some s →
      lfs_fuse_bd_seekpos cfg env c b = (mul_u32 s cfg.block_size, c)) ∧
    (∀ others : List Nat,
      lfs_fuse_bd_seekpos cfg env
          (resolve_all cfg env (lfs_fuse_bd_seekpos cfg env ctx b).2 others) b =
        ((lfs_fuse_bd_seekpos cfg env ctx b).1,
          resolve_all cfg env (lfs_fuse_bd_seekpos cfg env ctx b).2 others) ∧
      (resolve_all cfg env (lfs_fuse_bd_seekpos cfg env ctx b).2 others).list[b]? =
        (lfs_fuse_bd_seekpos cfg env ctx b).2.list[b]? ∧
      (lfs_fuse_bd_seekpos cfg env ctx b).2.fd.bytes.length ≤
        (resolve_all cfg env (lfs_fuse_bd_seekpos cfg env ctx b).2 others).fd.bytes.length) := by
  have hbl : b < ctx.list.length := by rw [hlen]; exact hb
  obtain ⟨s, hs, hslot, hoff⟩ := seekpos_result_allocated cfg env ctx b hbl hcf
  refine ⟨?_, ?_, ?_⟩
  · rw [seekpos_of_slot cfg env _ b s hs hslot, ← hoff]
  · intro c s1 hs1 hc
    exact seekpos_of_slot cfg env c b s1 hs1 hc
  · intro others
    obtain ⟨h1, h2⟩ := resolve_all_keeps cfg env others _ b s hs hslot
    refine ⟨?_, ?_, h2⟩
    · rw [seekpos_of_slot cfg env _ b s hs h1, hoff]
    · rw [h1, hslot]

theorem seekpos_idempotent_witness :
    lfs_fuse_bd_seekpos created_cfg ideal
        (lfs_fuse_bd_seekpos created_cfg ideal created_ctx 2).2 2 =
      lfs_fuse_bd_seekpos created_cfg ideal created_ctx 2 ∧
    (∀ (c : my_context) (s : Int), 0 ≤ s → c.list[2]? = some s →
      lfs_fuse_bd_seekpos created_cfg ideal c 2 = (mul_u32 s created_cfg.block_size, c)) ∧
    (∀ others : List Nat,
      lfs_fuse_bd_seekpos created_cfg ideal
          (resolve_all created_cfg ideal
            (lfs_fuse_bd_seekpos created_cfg ideal created_ctx 2).2 others) 2 =
        ((lfs_fuse_bd_seekpos created_cfg ideal created_ctx 2).1,
          resolve_all created_cfg ideal
            (lfs_fuse_bd_seekpos created_cfg ideal created_ctx 2).2 others) ∧
      (resolve_all created_cfg ideal
          (lfs_fuse_bd_seekpos created_cfg ideal created_ctx 2).2 others).list[2]? =
        (lfs_fuse_bd_seekpos created_cfg ideal created_ctx 2).2.list[2]? ∧
      (lfs_fuse_bd_seekpos created_cfg ideal created_ctx 2).2.fd.bytes.length ≤
        (resolve_all created_cfg ideal
          (lfs_fuse_bd_seekpos created_cfg ideal created_ctx 2).2 others).fd.bytes.length) :=
  seekpos_idempotent created_cfg ideal created_ctx 2 created_len (by decide) (by decide)

/-- C9, the code as it is. For a block below `block_count` and every
behaviour of the host (any call may fail, any read or write may move anything
from zero bytes to all that remains): the call never traps, and when it
returns, it returns either a negative code, or 0 after exactly `size` bytes
were moved, in order, starting at `list[block] * block_size + off`; it never
returns 0 with fewer bytes moved. It does return, within `size` loop
iterations, when no read or write of the host moves zero bytes; for a read
that also asks for the requested range to lie inside the backing file, a read
at the end of the file being a transfer of zero bytes. -/
theorem no_partial_success (cfg : lfs_config) (env : Nat → HostResp) (ctx : my_context)
    (block off : Nat) (hb : block < cfg.block_count) :
    (∀ (data : List Byte) (fuel : Nat),
      lfs_fuse_bd_prog cfg env fuel ctx block off data ≠ some .trap ∧
      ∀ (code : Int) (c1 : my_context),
        lfs_fuse_bd_prog cfg env fuel ctx block off data = some (.ret code c1 ()) →
        (code < 0 ∨ (code = 0 ∧
          (c1.fd.bytes.drop
              (mul_u32 (c1.list.getD block 0) cfg.block_size + off).toNat).take data.length
            = data ∧
          c1.fd.pos =
            (mul_u32 (c1.list.getD block 0) cfg.block_size + off).toNat + data.length))) ∧
    (∀ (size fuel : Nat),
      lfs_fuse_bd_read cfg env fuel ctx block off size ≠ some .trap ∧
      ∀ (code : Int) (c1 : my_context) (buf : List Byte),
        lfs_fuse_bd_read cfg env fuel ctx block off size = some (.ret code c1 buf) →
        (code < 0 ∨ (code = 0 ∧ buf.length = size ∧
          buf = (c1.fd.bytes.drop
              (mul_u32 (c1.list.getD block 0) cfg.block_size + off).toNat).take size ∧
          c1.fd.pos =
            (mul_u32 (c1.list.getD block 0) cfg.block_size + off).toNat + size))) ∧
    ((∀ i, env i ≠ .short 0) →
      (∀ (data : List Byte) (fuel : Nat), data.length ≤ fuel →
        ∃ (code : Int) (c1 : my_context),
          lfs_fuse_bd_prog cfg env fuel ctx block off data = some (.ret code c1 ())) ∧
      (∀ (size fuel : Nat), size ≤ fuel →
        ((lfs_fuse_bd_seekpos cfg env ctx block).1 + off).toNat + size ≤
          (lfs_fuse_bd_seekpos cfg env ctx block).2.fd.bytes.length →
        ∃ (code : Int) (c1 : my_context) (buf : List Byte),
          lfs_fuse_bd_read cfg env fuel ctx block off size = some (.ret code c1 buf))) := by
  refine ⟨?_, ?_, ?_⟩
  · intro data fuel
    exact ⟨prog_no_trap cfg env ctx block off data fuel hb,
      fun code c1 h => prog_sound cfg env ctx block off data fuel code c1 h⟩
  · intro size fuel
    exact ⟨read_no_trap cfg env ctx block off size fuel hb,
      fun code c1 buf h => read_sound cfg env ctx block off size fuel code c1 buf h⟩
  · intro hp
    refine ⟨?_, ?_⟩
    · intro data fuel hfuel
      obtain ⟨code, c1, h, _⟩ := prog_progress cfg env ctx block off hb hp data fuel hfuel
      exact ⟨code, c1, h⟩
    · intro size fuel hfuel hin
      obtain ⟨code, c1, buf, h, _⟩ :=
        read_progress cfg env ctx block off hb hp size fuel hfuel hin
      exact ⟨code, c1, buf, h⟩

theorem no_partial_success_witness :
    (2 : Nat) < created_cfg.block_count ∧
    (∀ i, trickle i ≠ .short 0) ∧
    (∀ (data : List Byte) (fuel : Nat),
      lfs_fuse_bd_prog created_cfg trickle fuel created_ctx 2 0 data ≠ some .trap ∧
      ∀ (code : Int) (c1 : my_context),
        lfs_fuse_bd_prog created_cfg trickle fuel created_ctx 2 0 data =
          some (.ret code c1 ()) →
        (code < 0 ∨ (code = 0 ∧
          (c1.fd.bytes.drop
              (mul_u32 (c1.list.getD 2 0) created_cfg.block_size + (0 : Nat)).toNat).take
                data.length = data ∧
          c1.fd.pos =
            (mul_u32 (c1.list.getD 2 0) created_cfg.block_size + (0 : Nat)).toNat
              + data.length))) ∧
    (∀ (size fuel : Nat),
      lfs_fuse_bd_read created_cfg trickle fuel created_ctx 2 0 size ≠ some .trap ∧
      ∀ (code : Int) (c1 : my_context) (buf : List Byte),
        lfs_fuse_bd_read created_cfg trickle fuel created_ctx 2 0 size =
          some (.ret code c1 buf) →
        (code < 0 ∨ (code = 0 ∧ buf.length = size ∧
          buf = (c1.fd.bytes.drop
              (mul_u32 (c1.list.getD 2 0) created_cfg.block_size + (0 : Nat)).toNat).take
                size ∧
          c1.fd.pos =
            (mul_u32 (c1.list.getD 2 0) created_cfg.block_size + (0 : Nat)).toNat + size))) ∧
    ((∀ i, trickle i ≠ .short 0) →
      (∀ (data : List Byte) (fuel : Nat), data.length ≤ fuel →
        ∃ (code : Int) (c1 : my_context),
          lfs_fuse_bd_prog created_cfg trickle fuel created_ctx 2 0 data =
            some (.ret code c1 ())) ∧
      (∀ (size fuel : Nat), size ≤ fuel →
        ((lfs_fuse_bd_seekpos created_cfg trickle created_ctx 2).1 + (0 : Nat)).toNat + size ≤
          (lfs_fuse_bd_seekpos created_cfg trickle created_ctx 2).2.fd.bytes.length →
        ∃ (code : Int) (c1 : my_context) (buf : List Byte),
          lfs_fuse_bd_read created_cfg trickle fuel created_ctx 2 0 size =
            some (.ret code c1 buf))) :=
  ⟨by decide, trickle_progress,
   no_partial_success created_cfg trickle created_ctx 2 0 (by decide)⟩

/-- C9 as written fails. A host that answers every write with a transfer of
zero bytes (a number between 0 and the remaining size, and not a failure)
keeps `lfs_fuse_bd_prog` in its loop for ever; and with a host that never
fails and never cuts a transfer short, a read of 513 bytes from block 0 of the
fresh device gets 512 bytes and then zero bytes for ever, the end of the file
being reached. Neither call returns 0 or an error code, whatever fuel it is
given. -/
theorem zero_transfer_never_returns :
    lfs_fuse_bd_create stalled false 0 = (0, created_cfg, some created_ctx) ∧
    (0 : Nat) < created_cfg.block_count ∧
    (∀ i n : Nat, (stalled i).grant n = .ok 0) ∧
    (¬ ∃ (fuel : Nat) (r : Outcome Unit),
        lfs_fuse_bd_prog created_cfg stalled fuel created_ctx 0 0 [0xAB] = some r) ∧
    (¬ ∃ (fuel : Nat) (r : Outcome (List Byte)),
        lfs_fuse_bd_read created_cfg ideal fuel created_ctx 0 0 513 = some r) := by
  refine ⟨rfl, by decide, fun i n => by simp [stalled, HostResp.grant], ?_, ?_⟩
  · rintro ⟨fuel, r, h⟩
    rw [prog_stalled created_cfg created_ctx 0 0 fuel 0xAB [] (by decide)] at h
    exact Option.noConfusion h
  · rintro ⟨fuel, r, h⟩
    rw [read_ideal_past_end created_cfg ideal ideal_full fuel created_ctx 0 0 512 (by decide)
      (by rw [created_resolve0.1, created_resolve0.2]; decide)] at h
    exact Option.noConfusion h

/-- C10 as amended. For every behaviour of the host, every state reachable
from create, distinct blocks `a` and `b` below `block_count` with `b`
allocated, and every completed `prog(a, off, data)` inside its block,
provided that, when the prog first allocates `a`, the `lseek` to the end of
the file does not fail: `b` keeps its slot; every range of `b` with
`off1 + size1 ≤ block_size` that lies inside the backing file holds the same
bytes after the prog as before; hence a `read(b, off1, size1)` that returns
0 after the prog returns the bytes that one returning 0 before it returns,
whichever hosts serve the two reads; and with a host whose calls all succeed
in full both reads do return 0. -/
theorem prog_preserves_other_block (cfg : lfs_config) (env : Nat → HostResp)
    (ctx : my_context) (a b off : Nat) (data : List Byte) (off1 size1 fuel : Nat)
    (code : Int) (ctx1 : my_context) (sb : Int)
    (hreach : Reachable cfg env ctx)
    (hab : a ≠ b) (ha : a < cfg.block_count) (hb : b < cfg.block_count)
    (hsb : 0 ≤ sb) (hslot : ctx.list[b]? = some sb)
    (hfit : off + data.length ≤ cfg.block_size) (hfit1 : off1 + size1 ≤ cfg.block_size)
    (hseek : ctx.list.getD a 0 < 0 → ∀ e, env ctx.fd.clock ≠ .fail e)
    (hprog : lfs_fuse_bd_prog cfg env fuel ctx a off data = some (.ret code ctx1 ())) :
    ctx1.list[b]? = some sb ∧
    ((sb * cfg.block_size + off1).toNat + size1 ≤ ctx.fd.bytes.length →
      (ctx1.fd.bytes.drop (sb * cfg.block_size + off1).toNat).take size1 =
        (ctx.fd.bytes.drop (sb * cfg.block_size + off1).toNat).take size1) ∧
    (∀ (env1 env2 : Nat → HostResp) (fuel1 fuel2 : Nat) (c2 c3 : my_context)
        (buf buf2 : List Byte),
      lfs_fuse_bd_read cfg env1 fuel1 ctx b off1 size1 = some (.ret 0 c2 buf) →
      lfs_fuse_bd_read cfg env2 fuel2 ctx1 b off1 size1 = some (.ret 0 c3 buf2) →
      buf2 = buf) ∧
    ((∀ i, env i = .full) → ∀ fuel1 : Nat, 0 < fuel1 →
      ∃ (c2 c3 : my_context) (buf : List Byte),
        lfs_fuse_bd_read cfg env fuel1 ctx b off1 size1 = some (.ret 0 c2 buf) ∧
        lfs_fuse_bd_read cfg env fuel1 ctx1 b off1 size1 = some (.ret 0 c3 buf)) := by
  have hcfg := reachable_cfg cfg env ctx hreach
  subst hcfg
  have hinv := MapInv_reachable created_cfg env ctx hreach
  have hfit' : off + data.length ≤ 512 := hfit
  have hfit1' : off1 + size1 ≤ 512 := hfit1
  have hkeep : (sb * 512 + off1).toNat + size1 ≤ ctx.fd.bytes.length →
      ctx1.list[b]? = some sb ∧
      (ctx1.fd.bytes.drop (sb * 512 + off1).toNat).take size1 =
        (ctx.fd.bytes.drop (sb * 512 + off1).toNat).take size1 :=
    stored_window_kept env ctx a b off data off1 size1 fuel code ctx1 sb hinv hab ha hsb
      hslot hfit' hfit1' hseek hprog
  obtain ⟨_, hlist1, hcf1⟩ := prog_ret_ctx created_cfg env fuel ctx a off data code ctx1 hprog
  have hinv1 : MapInv created_cfg ctx1 :=
    MapInv_of_map_eq created_cfg _ ctx1 (MapInv_seekpos created_cfg env ctx a hinv ha)
      hlist1 hcf1
  have hslot1 : ctx1.list[b]? = some sb := by
    rw [hlist1]
    exact seekpos_keeps_allocated created_cfg env ctx a b sb hsb hslot
  refine ⟨hslot1, fun hin => (hkeep hin).2, ?_, ?_⟩
  · intro env1 env2 fuel1 fuel2 c2 c3 buf buf2 hr hr2
    obtain ⟨hlen, hbuf⟩ := read_zero_window env1 ctx b off1 size1 fuel1 sb c2 buf hinv hsb
      hslot hr
    obtain ⟨hlen2, hbuf2⟩ := read_zero_window env2 ctx1 b off1 size1 fuel2 sb c3 buf2 hinv1
      hsb hslot1 hr2
    rcases Nat.eq_zero_or_pos size1 with hz | hpos
    · subst hz
      rw [List.length_eq_zero.mp hlen, List.length_eq_zero.mp hlen2]
    · have hin : (sb * 512 + off1).toNat + size1 ≤ ctx.fd.bytes.length := by
        rw [hbuf, List.length_take, List.length_drop] at hlen
        omega
      rw [hbuf, hbuf2]
      exact (hkeep hin).2
  · intro hideal fuel1 hfuel1
    have hcov := covers_created ctx (reachable_covers created_cfg env hideal ctx hreach)
    obtain ⟨hsb1, _, hmb⟩ := slot_offset ctx b sb hinv hsb hslot
    have hin : (sb * 512 + off1).toNat + size1 ≤ ctx.fd.bytes.length := by omega
    have hsk := seekpos_of_slot created_cfg env ctx b sb hsb hslot
    have hsk1 := seekpos_of_slot created_cfg env ctx1 b sb hsb hslot1
    rw [hmb] at hsk hsk1
    have hlen1 : ctx.fd.bytes.length ≤ ctx1.fd.bytes.length :=
      le_trans (seekpos_bytes_length created_cfg env ctx a)
        (prog_ret_length created_cfg env fuel ctx a off data code ctx1 hprog)
    obtain ⟨clk2, hr⟩ := read_ideal created_cfg env hideal fuel1 ctx b off1 size1 hb
      (Or.inr ⟨hfuel1, by rw [hsk]; exact hin⟩)
    obtain ⟨clk3, hr1⟩ := read_ideal created_cfg env hideal fuel1 ctx1 b off1 size1 hb
      (Or.inr ⟨hfuel1, by rw [hsk1]; exact le_trans hin hlen1⟩)
    rw [hsk] at hr
    rw [hsk1] at hr1
    simp only at hr hr1
    rw [(hkeep hin).2] at hr1
    exact ⟨_, _, _, hr, hr1⟩

theorem prog_preserves_other_block_witness :
    Reachable created_cfg ideal demo_ctx1 ∧
    demo_ctx1.list[2]? = some 0 ∧
    (demo_ctx1.list.getD 5 0 < 0 → ∀ e, ideal demo_ctx1.fd.clock ≠ .fail e) ∧
    lfs_fuse_bd_prog created_cfg ideal 1 demo_ctx1 5 0 [1, 2, 3] =
      some (.ret 0 demo_ctx2 ()) ∧
    demo_ctx2.list[2]? = some 0 ∧
    (((0 : Int) * created_cfg.block_size + (0 : Nat)).toNat + 512 ≤
        demo_ctx1.fd.bytes.length →
      (demo_ctx2.fd.bytes.drop ((0 : Int) * created_cfg.block_size + (0 : Nat)).toNat).take 512 =
        (demo_ctx1.fd.bytes.drop
          ((0 : Int) * created_cfg.block_size + (0 : Nat)).toNat).take 512) ∧
    (∀ (env1 env2 : Nat → HostResp) (fuel1 fuel2 : Nat) (c2 c3 : my_context)
        (buf buf2 : List Byte),
      lfs_fuse_bd_read created_cfg env1 fuel1 demo_ctx1 2 0 512 = some (.ret 0 c2 buf) →
      lfs_fuse_bd_read created_cfg env2 fuel2 demo_ctx2 2 0 512 = some (.ret 0 c3 buf2) →
      buf2 = buf) ∧
    ((∀ i, ideal i = .full) → ∀ fuel1 : Nat, 0 < fuel1 →
      ∃ (c2 c3 : my_context) (buf : List Byte),
        lfs_fuse_bd_read created_cfg ideal fuel1 demo_ctx1 2 0 512 = some (.ret 0 c2 buf) ∧
        lfs_fuse_bd_read created_cfg ideal fuel1 demo_ctx2 2 0 512 = some (.ret 0 c3 buf)) :=
  ⟨demo_reachable, demo_slot, fun _ => not_fail_of_ideal ideal ideal_full _, demo_prog_other,
   prog_preserves_other_block created_cfg ideal demo_ctx1 5 2 0 [1, 2, 3] 0 512 1 0
    demo_ctx2 0 demo_reachable (by decide) (by decide) (by decide)
    (by decide) demo_slot (by decide) (by decide)
    (fun _ => not_fail_of_ideal ideal ideal_full _) demo_prog_other⟩

set_option maxRecDepth 100000 in
/-- C10 as written fails. The state `iso_ctx0` is reached from create by
`prog(2, 0, 512 × 0xAB)` and `read(2, 0, 4)`, under the failing host as under
the ideal one, which leaves the descriptor at offset 4 of block 2. A `prog(5, 0, [1, 2, 3])`, first touch of block 5, whose
`lseek` to the end fails, writes its 512 zero bytes at offset 4 and returns
0. A read of block 2 returns 512 bytes of `0xAB` before that prog and 4 bytes
of `0xAB` followed by 508 zero bytes after it. -/
theorem seek_failure_breaks_isolation :
    Reachable created_cfg seek_end_fails iso_ctx0 ∧
    Reachable created_cfg ideal iso_ctx0 ∧
    (5 : Nat) ≠ 2 ∧ (5 : Nat) < created_cfg.block_count ∧
    (2 : Nat) < created_cfg.block_count ∧
    iso_ctx0.list[2]? = some 0 ∧
    iso_ctx0.list[5]? = some (-1) ∧
    seek_end_fails iso_ctx0.fd.clock = .fail EIO ∧
    lfs_fuse_bd_prog created_cfg seek_end_fails 1 iso_ctx0 5 0 [1, 2, 3] =
      some (.ret 0 iso_ctx1 ()) ∧
    lfs_fuse_bd_read created_cfg ideal 1 iso_ctx0 2 0 512 =
      some (.ret 0 { iso_ctx0 with fd := { iso_ctx0.fd with pos := 512, clock := 11 } }
        (List.replicate 512 0xAB)) ∧
    lfs_fuse_bd_read created_cfg seek_end_fails 1 iso_ctx1 2 0 512 =
      some (.ret 0 { iso_ctx1 with fd := { iso_ctx1.fd with pos := 512, clock := 15 } }
        (List.replicate 4 0xAB ++ List.replicate 508 0)) ∧
    (List.replicate 4 0xAB ++ List.replicate 508 0 : List Byte) ≠ List.replicate 512 0xAB := by
  refine ⟨iso_reachable, iso_reachable_ideal, by decide, by decide, by decide, by decide!, by decide!, by decide!,
    by decide!, by decide!, by decide!, by decide!⟩

end LfsFuseBd
